import Mathlib

/-!
Verification development for the structural code-change diff engine
(`change_tree.py`, `tree.py`, `node.py`, `flattener.py`).

The Python data structures are shallowly embedded:

* `TSNode` is the interface view of a parsed-tree node as consumed by the
  change-tree builder (`id`, `child_rank`, `type`, `value` — exactly the
  fields `NodeFactory.chtree_node_from_sitter_node` copies, plus the `id`
  used by `RootPath` and `is_repr_same`).
* `ChangeTreeSt` is an arena model of a `ChangeTree` instance: change-tree
  nodes live in a list indexed by allocation order, with `parent` and
  `children` stored as indices, mirroring the mutable pointer graph.
* Root paths, path diffs, insertion and traversal are translated
  operation by operation from the source.
-/

/-- Interface view of a `TreeSitterNode` as used by the change-tree builder:
`id`, `child_rank`, `type` and `value` are exactly the data read from a
parsed node by `RootPath` and `NodeFactory.chtree_node_from_sitter_node`. -/
structure TSNode where
  id : String
  child_rank : Nat
  type : String
  value : Option String
deriving DecidableEq, Repr

/-- A `ChangeTreeNode`: payload copied from the source `TSNode`, plus the
mutable `parent` back-reference and ordered `children`, stored as arena
indices. -/
structure ChNode where
  id : String
  child_rank : Nat
  type : String
  value : Option String
  parent : Option Nat
  children : List Nat
deriving DecidableEq, Repr

/-- Arena model of a `ChangeTree` instance: the allocated change-tree nodes
(in allocation order) and the optional root index (`self.root`). -/
structure ChangeTreeSt where
  nodes : List ChNode
  root : Option Nat
deriving DecidableEq, Repr

/-- A fresh `ChangeTree` (or one reset by `create_path_diffs`): no root and
no reachable nodes. -/
def emptyChangeTree : ChangeTreeSt := { nodes := [], root := none }

/-- Node lookup in the arena. -/
def nd? (st : ChangeTreeSt) (i : Nat) : Option ChNode := st.nodes[i]?

/-- The `children` list of arena node `i` (empty when `i` is unallocated). -/
def childrenAt (st : ChangeTreeSt) (i : Nat) : List Nat :=
  match nd? st i with
  | some nd => nd.children
  | none => []

/-- The `id` of arena node `i`, when allocated. -/
def idAt (st : ChangeTreeSt) (i : Nat) : Option String :=
  (nd? st i).map ChNode.id

/-- `NodeFactory.chtree_node_from_sitter_node`: build a `ChangeTreeNode` from
a parsed node, copying `id`, `child_rank`, `type`, `value`; `parent` defaults
to `None` and `children` to `[]`. -/
def freshNode (n : TSNode) : ChNode :=
  { id := n.id, child_rank := n.child_rank, type := n.type, value := n.value,
    parent := none, children := [] }

/-- The scan in `add_root_path`'s inner loop: among `parent`'s children, the
first one whose `id` equals the path node's `id` (`is_repr_same`). -/
def findChildIdx (st : ChangeTreeSt) (p : Nat) (x : String) : Option Nat :=
  (childrenAt st p).find? (fun c => decide (idAt st c = some x))

/-- Append `m` to the `children` of node `p` (the
`parent.children.append(new_node)` step). -/
def appendChildAt (nodes : List ChNode) (p m : Nat) : List ChNode :=
  match nodes[p]? with
  | some nd => nodes.set p { nd with children := nd.children ++ [m] }
  | none => nodes

/-- The walk over `root_path[1:]` in `add_root_path`: descend into an
existing child with the same `id`, else allocate a new node, set its parent,
append it to the parent's children, and descend into it. -/
def addLoop (st : ChangeTreeSt) (parent : Nat) : List TSNode → ChangeTreeSt
  | [] => st
  | x :: xs =>
    match findChildIdx st parent x.id with
    | some c => addLoop st c xs
    | none =>
      let m := st.nodes.length
      let newNd : ChNode := { freshNode x with parent := some parent }
      let st1 : ChangeTreeSt :=
        { nodes := appendChildAt (st.nodes ++ [newNd]) parent m, root := st.root }
      addLoop st1 m xs

/-- The `ValueError` message raised on an inconsistent root. -/
def rootErrMsg : String := "Root is inconsistent: it must be the same for all root-paths"

/-- `ChangeTree.add_root_path`: returns the state of the tree afterwards and
the raised error, if any.  An empty path raises (`root_path[0]` is an
`IndexError`); a path whose head disagrees with an established root raises
the construction `ValueError`; both raises happen before any mutation. -/
def addRootPathSt (st : ChangeTreeSt) (root_path : List TSNode) :
    ChangeTreeSt × Option String :=
  match root_path with
  | [] => (st, some "IndexError")
  | r :: rest =>
    match st.root with
    | none =>
      let m := st.nodes.length
      let st1 : ChangeTreeSt := { nodes := st.nodes ++ [freshNode r], root := some m }
      (addLoop st1 m rest, none)
    | some ri =>
      if idAt st ri = some r.id then (addLoop st ri rest, none)
      else (st, some rootErrMsg)

/-- Fold `add_root_path` over a list of paths, stopping at the first raised
error (the loop body of `create_path_diffs`). -/
def addAll (st : ChangeTreeSt) : List (List TSNode) → ChangeTreeSt × Option String
  | [] => (st, none)
  | p :: ps =>
    match addRootPathSt st p with
    | (st', none) => addAll st' ps
    | (st', some e) => (st', some e)

/-- `ChangeTree.RootPath`: a root-to-leaf list of parsed nodes; its identity
(for hashing and equality) is the sequence of node ids. -/
structure RootPath where
  path : List TSNode
deriving DecidableEq, Repr

/-- `RootPath.node_ids`: the identity sequence of the path. -/
def RootPath.node_ids (p : RootPath) : List String := p.path.map TSNode.id

/-- First-occurrence deduplication keyed by `key`, with an accumulator of
already seen keys.  `dedupKeys key l []` is the unique elements of `l`
(under key equality) listed by first occurrence — which is exactly
`sorted(set(l), key=l.index)` since all kept keys are distinct. -/
def dedupKeys {α β : Type} [DecidableEq β] (key : α → β) :
    List α → List β → List α
  | [], _ => []
  | x :: xs, seen =>
    if key x ∈ seen then dedupKeys key xs seen
    else x :: dedupKeys key xs (key x :: seen)

/-- Step 2–3 of `create_path_diffs`: the set difference
`set(base_set) − set(other_set)` under `RootPath` equality (equality of
`node_ids`), re-ordered by each element's first index in `base_set`. -/
def changedPaths (base other : List RootPath) : List RootPath :=
  dedupKeys RootPath.node_ids
    (base.filter (fun p => !(other.any (fun q => q.node_ids == p.node_ids)))) []

/-- `ChangeTree.create_path_diffs`: reset the tree, compute the ordered path
difference, and add each surviving root path. -/
def create_path_diffs (base other : List RootPath) : ChangeTreeSt × Option String :=
  addAll emptyChangeTree ((changedPaths base other).map RootPath.path)

section DedupLemmas

variable {α β : Type} [DecidableEq β] (key : α → β)

/-- Keys appearing in a first-occurrence dedup: those of the input list that
are not in the seen accumulator. -/
theorem dedupKeys_key_mem (l : List α) (seen : List β) (k : β) :
    k ∈ (dedupKeys key l seen).map key ↔ k ∈ l.map key ∧ k ∉ seen := by
  induction l generalizing seen with
  | nil => simp [dedupKeys]
  | cons x xs ih =>
    by_cases hx : key x ∈ seen
    · simp only [dedupKeys, if_pos hx, ih, List.map_cons, List.mem_cons]
      constructor
      · rintro ⟨hk, hns⟩; exact ⟨Or.inr hk, hns⟩
      · rintro ⟨hk | hk, hns⟩
        · exact absurd (hk ▸ hx) hns
        · exact ⟨hk, hns⟩
    · simp only [dedupKeys, if_neg hx, List.map_cons, List.mem_cons, ih]
      by_cases hkx : k = key x
      · subst hkx; simp [hx]
      · simp [hkx, Ne.symm hkx]

/-- A first-occurrence dedup is a sublist of the input. -/
theorem dedupKeys_sublist (l : List α) (seen : List β) :
    (dedupKeys key l seen).Sublist l := by
  induction l generalizing seen with
  | nil => simp [dedupKeys]
  | cons x xs ih =>
    by_cases hx : key x ∈ seen
    · simp only [dedupKeys, if_pos hx]
      exact (ih seen).cons x
    · simp only [dedupKeys, if_neg hx]
      exact (ih (key x :: seen)).cons₂ x

/-- The kept keys of a first-occurrence dedup are pairwise distinct. -/
theorem dedupKeys_key_nodup (l : List α) (seen : List β) :
    ((dedupKeys key l seen).map key).Nodup := by
  induction l generalizing seen with
  | nil => simp [dedupKeys]
  | cons x xs ih =>
    by_cases hx : key x ∈ seen
    · simpa only [dedupKeys, if_pos hx] using ih seen
    · simp only [dedupKeys, if_neg hx, List.map_cons, List.nodup_cons]
      refine ⟨fun hmem => ?_, ih (key x :: seen)⟩
      rcases (dedupKeys_key_mem key xs (key x :: seen) (key x)).1 hmem with ⟨-, hns⟩
      exact hns (List.mem_cons_self _ _)

/-- Index of the first element of `l` sharing `a`'s key. -/
def firstKeyIdx (l : List α) (a : α) : Nat :=
  l.findIdx (fun y => key y == key a)

/-- A first-occurrence dedup is strictly sorted by first-occurrence index. -/
theorem dedupKeys_sorted_firstKeyIdx (l : List α) (seen : List β) :
    (dedupKeys key l seen).Pairwise
      (fun a b => firstKeyIdx key l a < firstKeyIdx key l b) := by
  induction l generalizing seen with
  | nil => simp [dedupKeys]
  | cons x xs ih =>
    have keyOf : ∀ a ∈ dedupKeys key xs (key x :: seen), key a ≠ key x := by
      intro a ha hkey
      have : key a ∈ (dedupKeys key xs (key x :: seen)).map key :=
        List.mem_map_of_mem key ha
      rcases (dedupKeys_key_mem key xs (key x :: seen) (key a)).1 this with ⟨-, hns⟩
      exact hns (by simp [hkey])
    have keyOfSeen : ∀ a ∈ dedupKeys key xs seen, key a ∉ seen := by
      intro a ha
      have : key a ∈ (dedupKeys key xs seen).map key := List.mem_map_of_mem key ha
      exact ((dedupKeys_key_mem key xs seen (key a)).1 this).2
    have idxShift : ∀ a, key a ≠ key x →
        firstKeyIdx key (x :: xs) a = firstKeyIdx key xs a + 1 := by
      intro a hne
      simp only [firstKeyIdx, List.findIdx_cons]
      have : (key x == key a) = false := by
        simp [beq_eq_false_iff_ne, Ne.symm hne]
      simp [this]
    by_cases hx : key x ∈ seen
    · simp only [dedupKeys, if_pos hx]
      refine (ih seen).imp_of_mem ?_
      intro a b ha hb hlt
      have hka : key a ≠ key x := fun h => (keyOfSeen a ha) (h ▸ hx)
      have hkb : key b ≠ key x := fun h => (keyOfSeen b hb) (h ▸ hx)
      rw [idxShift a hka, idxShift b hkb]
      omega
    · simp only [dedupKeys, if_neg hx]
      refine List.Pairwise.cons ?_ ?_
      · intro b hb
        have hkb : key b ≠ key x := keyOf b hb
        have hx0 : firstKeyIdx key (x :: xs) x = 0 := by
          simp [firstKeyIdx, List.findIdx_cons]
        rw [hx0, idxShift b hkb]
        omega
      · refine (ih (key x :: seen)).imp_of_mem ?_
        intro a b ha hb hlt
        rw [idxShift a (keyOf a ha), idxShift b (keyOf b hb)]
        omega

/-- Filtering by a key-uniform predicate before deduplicating gives a
sublist of the dedup of the whole list. -/
theorem dedupKeys_filter_sublist (pred : α → Bool)
    (huniform : ∀ x y, key x = key y → pred x = pred y) :
    ∀ (l : List α) (seen₁ seen₂ : List β),
      (∀ k ∈ seen₁, k ∈ seen₂) →
      (∀ x ∈ l, pred x = true → (key x ∈ seen₂ ↔ key x ∈ seen₁)) →
      (dedupKeys key (l.filter pred) seen₁).Sublist (dedupKeys key l seen₂) := by
  intro l
  induction l with
  | nil => intro seen₁ seen₂ _ _; simp [dedupKeys]
  | cons x xs ih =>
    intro seen₁ seen₂ hsub hagree
    by_cases hp : pred x = true
    · have hiff : key x ∈ seen₂ ↔ key x ∈ seen₁ :=
        hagree x (List.mem_cons_self _ _) hp
      rw [List.filter_cons_of_pos hp]
      by_cases hx1 : key x ∈ seen₁
      · have hx2 : key x ∈ seen₂ := hiff.2 hx1
        simp only [dedupKeys, if_pos hx1, if_pos hx2]
        exact ih seen₁ seen₂ hsub fun y hy hpy => hagree y (List.mem_cons_of_mem x hy) hpy
      · have hx2 : key x ∉ seen₂ := fun h => hx1 (hiff.1 h)
        simp only [dedupKeys, if_neg hx1, if_neg hx2]
        refine List.Sublist.cons₂ x ?_
        refine ih (key x :: seen₁) (key x :: seen₂) ?_ ?_
        · intro k hk
          rcases List.mem_cons.1 hk with h | h
          · exact h ▸ List.mem_cons_self _ _
          · exact List.mem_cons_of_mem _ (hsub k h)
        · intro y hy hpy
          have := hagree y (List.mem_cons_of_mem x hy) hpy
          constructor
          · intro h
            rcases List.mem_cons.1 h with h | h
            · exact h ▸ List.mem_cons_self _ _
            · exact List.mem_cons_of_mem _ (this.1 h)
          · intro h
            rcases List.mem_cons.1 h with h | h
            · exact h ▸ List.mem_cons_self _ _
            · exact List.mem_cons_of_mem _ (this.2 h)
    · have hp' : pred x = false := by
        cases hpx : pred x
        · rfl
        · exact absurd hpx hp
      rw [List.filter_cons_of_neg (by simp [hp'])]
      by_cases hx2 : key x ∈ seen₂
      · simp only [dedupKeys, if_pos hx2]
        exact ih seen₁ seen₂ hsub fun y hy hpy => hagree y (List.mem_cons_of_mem x hy) hpy
      · simp only [dedupKeys, if_neg hx2]
        refine List.Sublist.cons x ?_
        refine ih seen₁ (key x :: seen₂) ?_ ?_
        · intro k hk
          exact List.mem_cons_of_mem _ (hsub k hk)
        · intro y hy hpy
          have hkyx : key y ≠ key x := by
            intro h
            rw [huniform y x h] at hpy
            exact (by simp [hp'] at hpy)
          have := hagree y (List.mem_cons_of_mem x hy) hpy
          constructor
          · intro h
            rcases List.mem_cons.1 h with h | h
            · exact absurd h hkyx
            · exact this.1 h
          · intro h
            exact List.mem_cons_of_mem _ (this.2 h)

end DedupLemmas
/-- C3: `add_root_path` raises the construction error exactly when the tree
already has a root whose identity differs from the head of the given path;
on any raise the tree state is unchanged; adding the roots of two unrelated
single-node trees raises on the second insertion, leaving the first tree. -/
theorem add_root_path_root_mismatch_error_iff :
    (∀ (st : ChangeTreeSt) (n : TSNode) (p : List TSNode),
        (addRootPathSt st (n :: p)).2 = some rootErrMsg ↔
          ∃ ri, st.root = some ri ∧ idAt st ri ≠ some n.id) ∧
    (∀ (st : ChangeTreeSt) (path : List TSNode),
        (addRootPathSt st path).2 ≠ none → (addRootPathSt st path).1 = st) ∧
    (∀ a b : TSNode, a.id ≠ b.id →
        (addRootPathSt (addRootPathSt emptyChangeTree [a]).1 [b]).2 = some rootErrMsg ∧
        (addRootPathSt (addRootPathSt emptyChangeTree [a]).1 [b]).1 =
          (addRootPathSt emptyChangeTree [a]).1) := by
  have herr : ∀ (st : ChangeTreeSt) (n : TSNode) (p : List TSNode),
      (addRootPathSt st (n :: p)).2 = some rootErrMsg ↔
        ∃ ri, st.root = some ri ∧ idAt st ri ≠ some n.id := by
    intro st n p
    cases h : st.root with
    | none => simp [addRootPathSt, h]
    | some ri =>
      by_cases hid : idAt st ri = some n.id
      · simp [addRootPathSt, h, hid]
      · simp [addRootPathSt, h, hid]
  refine ⟨herr, ?_, ?_⟩
  · intro st path hne
    cases path with
    | nil => rfl
    | cons n p =>
      cases h : st.root with
      | none => simp [addRootPathSt, h] at hne
      | some ri =>
        by_cases hid : idAt st ri = some n.id
        · simp [addRootPathSt, h, hid] at hne
        · simp [addRootPathSt, h, hid]
  · intro a b hab
    have h1 : (addRootPathSt emptyChangeTree [a]).1 =
        { nodes := [freshNode a], root := some 0 } := by
      simp [addRootPathSt, emptyChangeTree, addLoop]
    rw [h1]
    have hid : idAt { nodes := [freshNode a], root := some 0 } 0 = some a.id := by
      simp [idAt, nd?, freshNode]
    constructor
    · rw [(herr _ _ _)]
      refine ⟨0, rfl, ?_⟩
      rw [hid]
      simpa using hab
    · simp [addRootPathSt, hid, hab]

/-- C4: when the before and after path sets coincide (each side's paths all
occur on the other side, under identity-sequence equality), both build
directions return a rootless, empty tree, a normal non-error outcome
distinguishable from the root-inconsistency construction error. -/
theorem create_path_diffs_empty_diff_empty_tree (base other : List RootPath)
    (h1 : ∀ p ∈ base, ∃ q ∈ other, q.node_ids = p.node_ids)
    (h2 : ∀ q ∈ other, ∃ p ∈ base, p.node_ids = q.node_ids) :
    create_path_diffs base other = (emptyChangeTree, none) ∧
    create_path_diffs other base = (emptyChangeTree, none) ∧
    (create_path_diffs base other).1.root = none ∧
    (create_path_diffs other base).1.root = none ∧
    (create_path_diffs base other).2 ≠ some rootErrMsg ∧
    (create_path_diffs other base).2 ≠ some rootErrMsg := by
  have hnil : ∀ (xs ys : List RootPath),
      (∀ p ∈ xs, ∃ q ∈ ys, q.node_ids = p.node_ids) →
      changedPaths xs ys = [] := by
    intro xs ys hx
    have hfil : xs.filter (fun p => !(ys.any (fun q => q.node_ids == p.node_ids))) = [] := by
      rw [List.filter_eq_nil_iff]
      intro p hp
      rcases hx p hp with ⟨q, hq, hqe⟩
      simp only [Bool.not_eq_true', Bool.not_eq_false, List.any_eq_true, beq_iff_eq]
      exact ⟨q, hq, hqe⟩
    simp [changedPaths, hfil, dedupKeys]
  have hb : changedPaths base other = [] := hnil base other h1
  have ho : changedPaths other base = [] := hnil other base h2
  have eb : create_path_diffs base other = (emptyChangeTree, none) := by
    simp [create_path_diffs, hb, addAll]
  have eo : create_path_diffs other base = (emptyChangeTree, none) := by
    simp [create_path_diffs, ho, addAll]
  exact ⟨eb, eo, by rw [eb]; rfl, by rw [eo]; rfl, by rw [eb]; simp, by rw [eo]; simp⟩
/-- C1: `create_path_diffs` builds the change tree from exactly the set
difference of the base paths minus the other paths under identity-sequence
equality, with the surviving paths ordered by their first index in the base
list; for base paths P1,P2,P3 against other paths P2,P3,P4 (all with
pairwise different identity sequences across the difference) the surviving
set is exactly P1, and in the opposite direction exactly P4. -/
theorem create_path_diffs_set_difference_ordered :
    (∀ (base other : List RootPath) (k : List String),
        ((∃ p ∈ changedPaths base other, p.node_ids = k) ↔
          ((∃ p ∈ base, p.node_ids = k) ∧ ¬ ∃ q ∈ other, q.node_ids = k))) ∧
    (∀ base other : List RootPath, (changedPaths base other).Pairwise
        (fun a b => firstKeyIdx RootPath.node_ids base a <
          firstKeyIdx RootPath.node_ids base b)) ∧
    (∀ base other : List RootPath, create_path_diffs base other =
        addAll emptyChangeTree ((changedPaths base other).map RootPath.path)) ∧
    (∀ p1 p2 p3 p4 : RootPath,
        p1.node_ids ≠ p2.node_ids → p1.node_ids ≠ p3.node_ids →
        p1.node_ids ≠ p4.node_ids → p4.node_ids ≠ p2.node_ids →
        p4.node_ids ≠ p3.node_ids →
        changedPaths [p1, p2, p3] [p2, p3, p4] = [p1] ∧
        changedPaths [p2, p3, p4] [p1, p2, p3] = [p4]) := by
  have predTrue : ∀ (p : RootPath) (l : List RootPath),
      (∀ q ∈ l, q.node_ids ≠ p.node_ids) →
      (!(l.any (fun q => q.node_ids == p.node_ids))) = true := by
    intro p l h
    rw [Bool.not_eq_true', List.any_eq_false]
    intro q hq
    simp only [beq_iff_eq]
    exact h q hq
  have predFalse : ∀ (p : RootPath) (l : List RootPath),
      (∃ q ∈ l, q.node_ids = p.node_ids) →
      (!(l.any (fun q => q.node_ids == p.node_ids))) = false := by
    intro p l h
    rcases h with ⟨q, hq, hqe⟩
    rw [Bool.not_eq_false', List.any_eq_true]
    exact ⟨q, hq, beq_iff_eq.mpr hqe⟩
  refine ⟨?_, ?_, fun _ _ => rfl, ?_⟩
  · intro base other k
    have hmap := dedupKeys_key_mem RootPath.node_ids
      (base.filter (fun p => !(other.any (fun q => q.node_ids == p.node_ids)))) [] k
    simp only [List.not_mem_nil, not_false_iff, and_true, List.mem_map] at hmap
    constructor
    · rintro ⟨p, hp, hpk⟩
      have hpmem : p ∈ base.filter
          (fun p => !(other.any (fun q => q.node_ids == p.node_ids))) :=
        (dedupKeys_sublist RootPath.node_ids _ []).mem hp
      rw [List.mem_filter] at hpmem
      rcases hpmem with ⟨hpb, hpred⟩
      refine ⟨⟨p, hpb, hpk⟩, ?_⟩
      rintro ⟨q, hq, hqk⟩
      rw [Bool.not_eq_true', List.any_eq_false] at hpred
      exact hpred q hq (beq_iff_eq.mpr (hqk.trans hpk.symm))
    · rintro ⟨⟨p, hpb, hpk⟩, hno⟩
      have hpred : (!(other.any (fun q => q.node_ids == p.node_ids))) = true := by
        apply predTrue
        intro q hq hqe
        exact hno ⟨q, hq, hqe.trans hpk⟩
      simp only [changedPaths]
      exact hmap.2 ⟨p, List.mem_filter.2 ⟨hpb, hpred⟩, hpk⟩
  · intro base other
    have hu : ∀ x y : RootPath, x.node_ids = y.node_ids →
        (!(other.any (fun q => q.node_ids == x.node_ids)))
          = (!(other.any (fun q => q.node_ids == y.node_ids))) := by
      intro x y hxy; rw [hxy]
    have hs : (changedPaths base other).Sublist (dedupKeys RootPath.node_ids base []) :=
      dedupKeys_filter_sublist RootPath.node_ids _ hu base [] []
        (fun k hk => absurd hk (List.not_mem_nil k))
        (fun x _ _ => Iff.rfl)
    exact List.Pairwise.sublist hs (dedupKeys_sorted_firstKeyIdx RootPath.node_ids base [])
  · intro p1 p2 p3 p4 h12 h13 h14 h42 h43
    have mem3 : ∀ (a b c q : RootPath), q ∈ [a, b, c] → q = a ∨ q = b ∨ q = c := by
      intro a b c q hq
      simpa using hq
    constructor
    · have f1 := predTrue p1 [p2, p3, p4] (by
        intro q hq
        rcases mem3 _ _ _ _ hq with rfl | rfl | rfl
        · exact Ne.symm h12
        · exact Ne.symm h13
        · exact Ne.symm h14)
      have f2 := predFalse p2 [p2, p3, p4] ⟨p2, by simp, rfl⟩
      have f3 := predFalse p3 [p2, p3, p4] ⟨p3, by simp, rfl⟩
      have hfil : [p1, p2, p3].filter
          (fun p => !([p2, p3, p4].any (fun q => q.node_ids == p.node_ids))) = [p1] := by
        simp only [List.filter, f1, f2, f3]
      simp only [changedPaths]
      rw [hfil]
      simp [dedupKeys]
    · have f2 := predFalse p2 [p1, p2, p3] ⟨p2, by simp, rfl⟩
      have f3 := predFalse p3 [p1, p2, p3] ⟨p3, by simp, rfl⟩
      have f4 := predTrue p4 [p1, p2, p3] (by
        intro q hq
        rcases mem3 _ _ _ _ hq with rfl | rfl | rfl
        · exact h14
        · exact Ne.symm h42
        · exact Ne.symm h43)
      have hfil : [p2, p3, p4].filter
          (fun p => !([p1, p2, p3].any (fun q => q.node_ids == p.node_ids))) = [p4] := by
        simp only [List.filter, f2, f3, f4]
      simp only [changedPaths]
      rw [hfil]
      simp [dedupKeys]
/-- A minimal parsed-node value used to instantiate theorems on concrete
inputs: id and type are the given string, no value, rank 0. -/
def tnOf (s : String) : TSNode :=
  { id := s, child_rank := 0, type := s, value := none }

/-- A concrete root path whose node identities are the given strings. -/
def rpOf (l : List String) : RootPath := ⟨l.map tnOf⟩

/-- Witness for C1 at concrete paths: base r1,r2,r3 against other r2,r3,r4
leaves exactly r1, and conversely exactly r4. -/
theorem create_path_diffs_set_difference_ordered_witness :
    changedPaths [rpOf ["r", "1"], rpOf ["r", "2"], rpOf ["r", "3"]]
        [rpOf ["r", "2"], rpOf ["r", "3"], rpOf ["r", "4"]] = [rpOf ["r", "1"]] ∧
    changedPaths [rpOf ["r", "2"], rpOf ["r", "3"], rpOf ["r", "4"]]
        [rpOf ["r", "1"], rpOf ["r", "2"], rpOf ["r", "3"]] = [rpOf ["r", "4"]] :=
  create_path_diffs_set_difference_ordered.2.2.2
    (rpOf ["r", "1"]) (rpOf ["r", "2"]) (rpOf ["r", "3"]) (rpOf ["r", "4"])
    (by decide) (by decide) (by decide) (by decide) (by decide)

/-- Witness for C3 at two concrete unrelated single-node trees. -/
theorem add_root_path_root_mismatch_error_iff_witness :
    (addRootPathSt (addRootPathSt emptyChangeTree [tnOf "a"]).1 [tnOf "b"]).2 =
      some rootErrMsg ∧
    (addRootPathSt (addRootPathSt emptyChangeTree [tnOf "a"]).1 [tnOf "b"]).1 =
      (addRootPathSt emptyChangeTree [tnOf "a"]).1 :=
  add_root_path_root_mismatch_error_iff.2.2 (tnOf "a") (tnOf "b") (by decide)

/-- Witness for C4 at a concrete pair of identical path sets. -/
theorem create_path_diffs_empty_diff_empty_tree_witness :
    create_path_diffs [rpOf ["r", "x"]] [rpOf ["r", "x"]] = (emptyChangeTree, none) :=
  (create_path_diffs_empty_diff_empty_tree [rpOf ["r", "x"]] [rpOf ["r", "x"]]
    (by decide) (by decide)).1
/-- Parent/child mutual consistency: every index in a node's `children`
points to an allocated node whose `parent` reference is that node. -/
def LinksConsistent (st : ChangeTreeSt) : Prop :=
  ∀ p nd, nd? st p = some nd → ∀ c ∈ nd.children,
    ∃ cnd, nd? st c = some cnd ∧ cnd.parent = some p

/-- Every allocated non-root node occurs in some node's `children`. -/
def NonRootCovered (st : ChangeTreeSt) : Prop :=
  ∀ c, c < st.nodes.length → st.root ≠ some c →
    ∃ p nd, nd? st p = some nd ∧ c ∈ nd.children

/-- The root, when present, has no parent. -/
def RootParentNone (st : ChangeTreeSt) : Prop :=
  ∀ r nd, st.root = some r → nd? st r = some nd → nd.parent = none

/-- No node is registered twice in one `children` list. -/
def ChildrenNodup (st : ChangeTreeSt) : Prop :=
  ∀ p nd, nd? st p = some nd → nd.children.Nodup

/-- The root, when present, is allocated. -/
def RootValid (st : ChangeTreeSt) : Prop :=
  ∀ r, st.root = some r → r < st.nodes.length

/-- The structural invariant of the change-tree pointer graph. -/
def TreeInv (st : ChangeTreeSt) : Prop :=
  LinksConsistent st ∧ NonRootCovered st ∧ RootParentNone st ∧
  ChildrenNodup st ∧ RootValid st

theorem treeInv_empty : TreeInv emptyChangeTree := by
  refine ⟨?_, ?_, ?_, ?_, ?_⟩ <;>
    simp [LinksConsistent, NonRootCovered, RootParentNone, ChildrenNodup,
      RootValid, emptyChangeTree, nd?]

theorem nd?_isSome_of_lt {st : ChangeTreeSt} {i : Nat} (h : i < st.nodes.length) :
    ∃ nd, nd? st i = some nd := by
  simp [nd?, List.getElem?_eq_getElem h]

theorem lt_of_nd?_isSome {st : ChangeTreeSt} {i : Nat} {nd : ChNode}
    (h : nd? st i = some nd) : i < st.nodes.length := by
  by_contra hge
  rw [nd?, List.getElem?_eq_none (by omega)] at h
  exact Option.noConfusion h

theorem addLoop_treeInv (xs : List TSNode) :
    ∀ (st : ChangeTreeSt) (parent : Nat), TreeInv st → parent < st.nodes.length →
      TreeInv (addLoop st parent xs) ∧
      (addLoop st parent xs).root = st.root ∧
      st.nodes.length ≤ (addLoop st parent xs).nodes.length := by
  induction xs with
  | nil => intro st parent hinv hp; exact ⟨hinv, rfl, le_refl _⟩
  | cons x xs ih =>
    intro st parent hinv hp
    obtain ⟨hlinks, hcov, hrpn, hnodup, hrv⟩ := hinv
    match hfind : findChildIdx st parent x.id with
    | some c =>
      obtain ⟨nd, hnd⟩ := nd?_isSome_of_lt hp
      have hcmem : c ∈ nd.children :=
        List.mem_of_find?_eq_some (by simpa [findChildIdx, childrenAt, hnd] using hfind)
      obtain ⟨cnd, hcnd, -⟩ := hlinks parent nd hnd c hcmem
      have hc : c < st.nodes.length := lt_of_nd?_isSome hcnd
      have := ih st c ⟨hlinks, hcov, hrpn, hnodup, hrv⟩ hc
      simpa only [addLoop, hfind] using this
    | none =>
      obtain ⟨nd0, hnd0⟩ := nd?_isSome_of_lt hp
      have heq : addLoop st parent (x :: xs) =
          addLoop
            { nodes := appendChildAt
                (st.nodes ++ [{ freshNode x with parent := some parent }])
                parent st.nodes.length,
              root := st.root } st.nodes.length xs := by
        simp only [addLoop, hfind]
      set m := st.nodes.length with hm
      set newNd : ChNode := { freshNode x with parent := some parent } with hnew
      set nd0' : ChNode := { nd0 with children := nd0.children ++ [m] } with hnd0'
      set st1 : ChangeTreeSt :=
        { nodes := appendChildAt (st.nodes ++ [newNd]) parent m, root := st.root }
        with hst1
      have happ : (st.nodes ++ [newNd])[parent]? = some nd0 := by
        rw [List.getElem?_append_left hp]
        simpa [nd?] using hnd0
      have hst1nodes : st1.nodes = (st.nodes ++ [newNd]).set parent nd0' := by
        simp only [hst1, appendChildAt]
        rw [happ]
      have u4 : st1.nodes.length = m + 1 := by
        rw [hst1nodes]
        simp
      have u2 : nd? st1 parent = some nd0' := by
        rw [nd?, hst1nodes, List.getElem?_set_eq (by simp; omega)]
      have u3 : nd? st1 m = some newNd := by
        rw [nd?, hst1nodes, List.getElem?_set_ne (by omega),
          List.getElem?_append_right (le_refl m)]
        simp
      have u1 : ∀ i, i ≠ parent → i < m → nd? st1 i = nd? st i := by
        intro i hip him
        rw [nd?, hst1nodes, List.getElem?_set_ne (Ne.symm hip),
          List.getElem?_append_left him]
        rfl
      have hchild_lt : ∀ {p nd c}, nd? st p = some nd → c ∈ nd.children →
          c < m := by
        intro p nd c hnd hc
        obtain ⟨cnd, hcnd, -⟩ := hlinks p nd hnd c hc
        exact lt_of_nd?_isSome hcnd
      -- the updated state satisfies the invariant
      have hlinks1 : LinksConsistent st1 := by
        intro p nd hnd c hc
        by_cases hpm : p = m
        · subst p
          rw [u3] at hnd
          cases hnd
          simp [hnew, freshNode] at hc
        by_cases hpp : p = parent
        · subst p
          rw [u2] at hnd
          cases hnd
          rcases List.mem_append.1 hc with hcold | hcnew
          · obtain ⟨cnd, hcnd, hpar⟩ := hlinks parent nd0 hnd0 c hcold
            have hcm : c < m := lt_of_nd?_isSome hcnd
            by_cases hcp : c = parent
            · subst c
              refine ⟨nd0', u2, ?_⟩
              rw [hnd0] at hcnd
              cases hcnd
              simpa [hnd0'] using hpar
            · exact ⟨cnd, (u1 c hcp hcm).trans hcnd, hpar⟩
          · have hcm : c = m := by simpa using hcnew
            subst hcm
            exact ⟨newNd, u3, rfl⟩
        · have hplt : p < m := by
            have := lt_of_nd?_isSome hnd
            rw [u4] at this
            omega
          rw [u1 p hpp hplt] at hnd
          obtain ⟨cnd, hcnd, hpar⟩ := hlinks p nd hnd c hc
          have hcm : c < m := lt_of_nd?_isSome hcnd
          by_cases hcp : c = parent
          · subst c
            refine ⟨nd0', u2, ?_⟩
            rw [hnd0] at hcnd
            cases hcnd
            simpa [hnd0'] using hpar
          · exact ⟨cnd, (u1 c hcp hcm).trans hcnd, hpar⟩
      have hcov1 : NonRootCovered st1 := by
        intro c hc hroot
        rw [u4] at hc
        by_cases hcm : c = m
        · subst c
          exact ⟨parent, nd0', u2, by simp [hnd0']⟩
        · have hclt : c < m := by omega
          have hroot' : st.root ≠ some c := by simpa [hst1] using hroot
          obtain ⟨p, nd, hnd, hcmem⟩ := hcov c hclt hroot'
          have hplt : p < m := lt_of_nd?_isSome hnd
          by_cases hpp : p = parent
          · subst p
            rw [hnd0] at hnd
            cases hnd
            exact ⟨parent, nd0', u2, by simp [hnd0', hcmem]⟩
          · exact ⟨p, nd, (u1 p hpp hplt).trans hnd, hcmem⟩
      have hrpn1 : RootParentNone st1 := by
        intro r nd hr hnd
        have hrs : st.root = some r := by simpa [hst1] using hr
        have hrlt : r < m := hrv r hrs
        by_cases hrp : r = parent
        · subst r
          rw [u2] at hnd
          cases hnd
          have := hrpn parent nd0 hrs hnd0
          simpa [hnd0'] using this
        · rw [u1 r hrp hrlt] at hnd
          exact hrpn r nd hrs hnd
      have hnodup1 : ChildrenNodup st1 := by
        intro p nd hnd
        by_cases hpm : p = m
        · subst p
          rw [u3] at hnd
          cases hnd
          simp [hnew, freshNode]
        by_cases hpp : p = parent
        · subst p
          rw [u2] at hnd
          cases hnd
          simp only [hnd0', List.nodup_append]
          refine ⟨hnodup parent nd0 hnd0, by simp, ?_⟩
          intro a ha
          have : a < m := hchild_lt hnd0 ha
          simp
          omega
        · have hplt : p < m := by
            have := lt_of_nd?_isSome hnd
            rw [u4] at this
            omega
          rw [u1 p hpp hplt] at hnd
          exact hnodup p nd hnd
      have hrv1 : RootValid st1 := by
        intro r hr
        have hrs : st.root = some r := by simpa [hst1] using hr
        have := hrv r hrs
        omega
      have hm1 : m < st1.nodes.length := by omega
      have hres := ih st1 m ⟨hlinks1, hcov1, hrpn1, hnodup1, hrv1⟩ hm1
      rw [heq]
      refine ⟨hres.1, ?_, ?_⟩
      · rw [hres.2.1]
      · have := hres.2.2
        omega

theorem addRootPathSt_treeInv (st : ChangeTreeSt) (path : List TSNode)
    (hinv : TreeInv st) : TreeInv (addRootPathSt st path).1 := by
  obtain ⟨hlinks, hcov, hrpn, hnodup, hrv⟩ := hinv
  cases path with
  | nil => exact ⟨hlinks, hcov, hrpn, hnodup, hrv⟩
  | cons r rest =>
    cases hroot : st.root with
    | none =>
      set m := st.nodes.length with hm
      set st1 : ChangeTreeSt := { nodes := st.nodes ++ [freshNode r], root := some m }
        with hst1
      have v1 : ∀ i, i < m → nd? st1 i = nd? st i := by
        intro i him
        rw [nd?, hst1]
        simp only
        rw [List.getElem?_append_left him]
        rfl
      have v3 : nd? st1 m = some (freshNode r) := by
        rw [nd?, hst1]
        simp only
        rw [List.getElem?_append_right (le_refl m)]
        simp
      have v4 : st1.nodes.length = m + 1 := by simp [hst1]
      have hinv1 : TreeInv st1 := by
        refine ⟨?_, ?_, ?_, ?_, ?_⟩
        · intro p nd hnd c hc
          by_cases hpm : p = m
          · subst p
            rw [v3] at hnd
            cases hnd
            simp [freshNode] at hc
          · have hplt : p < m := by
              have := lt_of_nd?_isSome hnd
              rw [v4] at this
              omega
            rw [v1 p hplt] at hnd
            obtain ⟨cnd, hcnd, hpar⟩ := hlinks p nd hnd c hc
            have hcm : c < m := lt_of_nd?_isSome hcnd
            exact ⟨cnd, (v1 c hcm).trans hcnd, hpar⟩
        · intro c hc hcroot
          rw [v4] at hc
          have hcm : c ≠ m := by
            intro h
            exact hcroot (by rw [hst1, h])
          have hclt : c < m := by omega
          obtain ⟨p, nd, hnd, hmem⟩ := hcov c hclt (by rw [hroot]; exact fun h => Option.noConfusion h)
          have hplt : p < m := lt_of_nd?_isSome hnd
          exact ⟨p, nd, (v1 p hplt).trans hnd, hmem⟩
        · intro rt nd hrt hnd
          have : rt = m := by
            rw [hst1] at hrt
            exact Option.some.inj hrt.symm
          subst rt
          rw [v3] at hnd
          cases hnd
          simp [freshNode]
        · intro p nd hnd
          by_cases hpm : p = m
          · subst p
            rw [v3] at hnd
            cases hnd
            simp [freshNode]
          · have hplt : p < m := by
              have := lt_of_nd?_isSome hnd
              rw [v4] at this
              omega
            rw [v1 p hplt] at hnd
            exact hnodup p nd hnd
        · intro rt hrt
          have : rt = m := by
            rw [hst1] at hrt
            exact Option.some.inj hrt.symm
          subst rt
          omega
      have hmlt : m < st1.nodes.length := by
        rw [v4]
        omega
      have := (addLoop_treeInv rest st1 m hinv1 hmlt).1
      simpa [addRootPathSt, hroot, hst1] using this
    | some ri =>
      by_cases hid : idAt st ri = some r.id
      · have hri : ri < st.nodes.length := by
          rcases hnd : nd? st ri with _ | nd
          · rw [idAt, hnd] at hid
            exact Option.noConfusion hid
          · exact lt_of_nd?_isSome hnd
        have := (addLoop_treeInv rest st ri ⟨hlinks, hcov, hrpn, hnodup, hrv⟩ hri).1
        simpa [addRootPathSt, hroot, hid] using this
      · simpa [addRootPathSt, hroot, hid] using ⟨hlinks, hcov, hrpn, hnodup, hrv⟩

/-- The state of a fresh `ChangeTree` after a sequence of `add_root_path`
calls (a call that raises leaves the state as it was). -/
def buildSt (paths : List (List TSNode)) : ChangeTreeSt :=
  paths.foldl (fun st p => (addRootPathSt st p).1) emptyChangeTree

theorem buildSt_treeInv (paths : List (List TSNode)) : TreeInv (buildSt paths) := by
  suffices h : ∀ st, TreeInv st →
      TreeInv (paths.foldl (fun st p => (addRootPathSt st p).1) st) from
    h emptyChangeTree treeInv_empty
  induction paths with
  | nil => intro st hinv; exact hinv
  | cons p ps ih =>
    intro st hinv
    exact ih _ (addRootPathSt_treeInv st p hinv)

/-- C5: after any sequence of `add_root_path` calls, parent/child links are
mutually consistent (every registered child points back to the node that
holds it), the root has no parent, and every allocated non-root node is
registered as a child of exactly one node. -/
theorem add_root_path_parent_child_consistent (paths : List (List TSNode)) :
    LinksConsistent (buildSt paths) ∧
    RootParentNone (buildSt paths) ∧
    (∀ c, c < (buildSt paths).nodes.length → (buildSt paths).root ≠ some c →
      ∃! p, ∃ nd, nd? (buildSt paths) p = some nd ∧ c ∈ nd.children) := by
  obtain ⟨hl, hc, hr, hn, hv⟩ := buildSt_treeInv paths
  refine ⟨hl, hr, ?_⟩
  intro c hclen hcroot
  obtain ⟨p, nd, hnd, hmem⟩ := hc c hclen hcroot
  refine ⟨p, ⟨nd, hnd, hmem⟩, ?_⟩
  rintro q ⟨nd', hnd', hmem'⟩
  obtain ⟨cnd, hcnd, hpar⟩ := hl q nd' hnd' c hmem'
  obtain ⟨cnd2, hcnd2, hpar2⟩ := hl p nd hnd c hmem
  rw [hcnd] at hcnd2
  cases hcnd2
  rw [hpar] at hpar2
  exact Option.some.inj hpar2.symm |>.symm

/-- Witness for C5 on a concrete two-node root path: node 1 has exactly one
parent, namely the root 0. -/
theorem add_root_path_parent_child_consistent_witness :
    ∃! p, ∃ nd, nd? (buildSt [[tnOf "r", tnOf "a"]]) p = some nd ∧ 1 ∈ nd.children :=
  (add_root_path_parent_child_consistent [[tnOf "r", tnOf "a"]]).2.2 1
    (by decide) (by decide)
/-- `ChangeTree.is_aleady_visited`: membership in the visited list is
checked by node-id equality, not by reference. -/
def isVisited (st : ChangeTreeSt) (visited : List Nat) (i : Nat) : Bool :=
  visited.any (fun v => idAt st v == idAt st i)

/-- `ChangeTree.traverse`, with explicit fuel: starting from an optional
current node, repeatedly yield the current node if its id is unvisited,
then move to the first child whose id is unvisited, else to the parent;
stop when the current node is `None`.  Returns `none` when the fuel runs
out before the loop ends. -/
def traverseFuel (st : ChangeTreeSt) : Nat → Option Nat → List Nat → Option (List Nat)
  | _, none, _ => some []
  | 0, some _, _ => none
  | fuel + 1, some i, visited =>
    let step : List Nat × List Nat :=
      if isVisited st visited i then ([], visited) else ([i], visited ++ [i])
    let next : Option Nat :=
      match (childrenAt st i).find? (fun c => !(isVisited st step.2 c)) with
      | some c => some c
      | none => (nd? st i).bind ChNode.parent
    (traverseFuel st fuel next step.2).map (fun rest => step.1 ++ rest)

/-- `MethodFlattener.get_repr_for_csv_entry`: `None` becomes the empty
string; commas, newlines, carriage returns and tabs are escaped. -/
def get_repr_for_csv_entry (r : Option String) : String :=
  (((((r.getD "").replace "," ";").replace "\n" "\\n").replace "\r" "\\r").replace
    "\t" "\\t")

/-- The per-node representation produced by `MethodFlattener.get_flatten`
for one yielded node. -/
def flattenNodeRepr (nd : ChNode) : String :=
  let node_type := get_repr_for_csv_entry (some nd.type)
  let node_val := get_repr_for_csv_entry nd.value
  if nd.children.isEmpty && !(node_val == "") && !(node_type == node_val) then
    node_type ++ "," ++ node_val
  else
    get_repr_for_csv_entry (some nd.type)

/-- `MethodFlattener.get_flatten` over a change tree: traverse, skip
comment nodes, render each remaining node. -/
def getFlattenChange (st : ChangeTreeSt) (fuel : Nat) : List String :=
  match traverseFuel st fuel st.root [] with
  | some idxs =>
    ((idxs.filterMap (nd? st)).filter
      (fun nd => !(nd.type == "line_comment") && !(nd.type == "block_comment"))).map
      flattenNodeRepr
  | none => []

/-- C10: traversing a change tree whose root is absent yields the empty
sequence without error (for any fuel, the loop ends normally), and
flattening such a tree produces the empty output list. -/
theorem traverse_rootless_empty_flatten (st : ChangeTreeSt) (fuel : Nat)
    (hroot : st.root = none) :
    traverseFuel st fuel st.root [] = some [] ∧ getFlattenChange st fuel = [] := by
  have h : traverseFuel st fuel st.root [] = some [] := by
    rw [hroot]
    cases fuel <;> rfl
  refine ⟨h, ?_⟩
  rw [getFlattenChange, h]
  rfl

/-- Witness for C10 at the fresh empty change tree. -/
theorem traverse_rootless_empty_flatten_witness :
    traverseFuel emptyChangeTree 5 emptyChangeTree.root [] = some [] ∧
    getFlattenChange emptyChangeTree 5 = [] :=
  traverse_rootless_empty_flatten emptyChangeTree 5 rfl
/-- Positional certificate of a tree laid out in an arena: a node index and
the (deduplicated) subtree certificates of its children. -/
inductive PT : Type where
  | mk (idx : Nat) (cs : List PT)

/-- The root index of a certificate. -/
def PT.top : PT → Nat
  | .mk i _ => i

mutual
/-- Depth-first preorder of the indices of a certificate. -/
def PT.pre : PT → List Nat
  | .mk i cs => i :: PT.preList cs
/-- Preorder of a list of sibling certificates, left to right. -/
def PT.preList : List PT → List Nat
  | [] => []
  | c :: cs => PT.pre c ++ PT.preList cs
end

/-- Number of nodes of a certificate. -/
def PT.size (t : PT) : Nat := t.pre.length

mutual
/-- Loop iterations consumed by `ChangeTree.traverse` on one subtree:
one arrival plus one return per child. -/
def PT.cost : PT → Nat
  | .mk _ cs => 1 + cs.length + PT.costList cs
def PT.costList : List PT → Nat
  | [] => 0
  | c :: cs => PT.cost c + PT.costList cs
end

theorem PT.preList_append (l1 l2 : List PT) :
    PT.preList (l1 ++ l2) = PT.preList l1 ++ PT.preList l2 := by
  induction l1 with
  | nil => rfl
  | cons c cs ih => simp [PT.preList, ih]

theorem PT.mem_preList {x : Nat} {cs : List PT} :
    x ∈ PT.preList cs ↔ ∃ c ∈ cs, x ∈ c.pre := by
  induction cs with
  | nil => simp [PT.preList]
  | cons c cs ih =>
    simp [PT.preList, ih]

theorem PT.top_mem_pre (t : PT) : t.top ∈ t.pre := by
  cases t with
  | mk j cs => simp [PT.top, PT.pre]

/-- First occurrences of a list of indices, in order: the effective scan
order of a `children` list that may contain repeated references. -/
def keepFirsts : List Nat → List Nat
  | [] => []
  | x :: xs => x :: keepFirsts (xs.filter (fun y => y != x))
termination_by l => l.length
decreasing_by
  simp only [List.length_cons]
  exact Nat.lt_succ_of_le (List.length_filter_le _ _)

theorem keepFirsts_mem (l : List Nat) (x : Nat) : x ∈ keepFirsts l ↔ x ∈ l := by
  induction l using keepFirsts.induct with
  | case1 => rw [keepFirsts]
  | case2 y ys ih =>
    rw [keepFirsts]
    by_cases hxy : x = y
    · subst hxy
      simp
    · simp only [List.mem_cons, ih, List.mem_filter, hxy, false_or]
      constructor
      · rintro ⟨h, -⟩
        exact h
      · intro h
        exact ⟨h, by simp [hxy]⟩

theorem keepFirsts_nil_iff (l : List Nat) : keepFirsts l = [] ↔ l = [] := by
  cases l with
  | nil => simp [keepFirsts]
  | cons x xs => rw [keepFirsts]; simp

theorem find?_filter_eq (l : List Nat) (pred q : Nat → Bool)
    (h : ∀ e ∈ l, pred e = true → q e = true) :
    (l.filter q).find? pred = l.find? pred := by
  induction l with
  | nil => rfl
  | cons e l ih =>
    by_cases hq : q e = true
    · rw [List.filter_cons_of_pos hq]
      cases hp : pred e
      · rw [List.find?_cons_of_neg _ (by simp [hp]), List.find?_cons_of_neg _ (by simp [hp])]
        exact ih fun y hy hpy => h y (List.mem_cons_of_mem e hy) hpy
      · rw [List.find?_cons_of_pos _ hp, List.find?_cons_of_pos _ hp]
    · have hp : pred e = false := by
        cases hp : pred e
        · rfl
        · exact absurd (h e (List.mem_cons_self e l) hp) hq
      rw [List.filter_cons_of_neg (by simp [hq]), List.find?_cons_of_neg _ (by simp [hp])]
      exact ih fun y hy hpy => h y (List.mem_cons_of_mem e hy) hpy

/-- When the first occurrences of `l` split as `taken ++ rest` and a
predicate holds exactly off `taken`, the first match in `l` is the head of
`rest`. -/
theorem keepFirsts_find (pred : Nat → Bool) :
    ∀ (taken : List Nat) (l rest : List Nat), keepFirsts l = taken ++ rest →
      (∀ e ∈ l, pred e = true ↔ e ∉ taken) →
      l.find? pred = rest.head? := by
  intro taken
  induction taken with
  | nil =>
    intro l rest hkf hpred
    have hall : ∀ e ∈ l, pred e = true := by
      intro e he
      exact (hpred e he).2 (by simp)
    rw [List.nil_append] at hkf
    subst hkf
    cases l with
    | nil => rw [keepFirsts]; rfl
    | cons x xs =>
      rw [List.find?_cons_of_pos _ (hall x (List.mem_cons_self x xs)), keepFirsts]
      rfl
  | cons t taken' ih =>
    intro l rest hkf hpred
    cases l with
    | nil =>
      rw [keepFirsts] at hkf
      simp at hkf
    | cons y ys =>
      rw [keepFirsts, List.cons_append] at hkf
      have hyt : y = t := (List.cons.inj hkf).1
      subst hyt
      have hkf' : keepFirsts (ys.filter (fun z => z != y)) = taken' ++ rest :=
        (List.cons.inj hkf).2
      have hpy : pred y = false := by
        have := hpred y (List.mem_cons_self y ys)
        cases hp : pred y
        · rfl
        · exact absurd (List.mem_cons_self y taken') (this.1 hp)
      rw [List.find?_cons_of_neg _ (by simp [hpy])]
      rw [← find?_filter_eq ys pred (fun z => z != y) ?hq]
      · refine ih (ys.filter (fun z => z != y)) rest hkf' ?_
        intro e he
        rw [List.mem_filter] at he
        rcases he with ⟨hey, hne⟩
        have := hpred e (List.mem_cons_of_mem y hey)
        rw [this]
        have hney : e ≠ y := by simpa using hne
        simp [hney]
      · intro e he hpe
        have := hpred e (List.mem_cons_of_mem y he)
        have hne : e ∉ y :: taken' := this.1 hpe
        simp only [List.mem_cons, not_or] at hne
        simp [hne.1]
theorem keepFirsts_nodup (l : List Nat) : (keepFirsts l).Nodup := by
  induction l using keepFirsts.induct with
  | case1 => rw [keepFirsts]; exact List.nodup_nil
  | case2 y ys ih =>
    rw [keepFirsts]
    refine List.nodup_cons.2 ⟨?_, ih⟩
    intro hmem
    have := (keepFirsts_mem _ y).1 hmem
    rw [List.mem_filter] at this
    simpa using this.2

theorem PT.pre_sublist_of_mem {c : PT} {cs : List PT} (h : c ∈ cs) :
    c.pre.Sublist (PT.preList cs) := by
  induction cs with
  | nil => cases h
  | cons d ds ih =>
    rcases List.mem_cons.1 h with rfl | h
    · exact (List.sublist_append_left _ _)
    · exact (ih h).trans (List.sublist_append_right _ _)

/-- Arena agreement with a tree certificate: the node exists, its parent
reference is as stated, the first occurrences of its `children` entries are
exactly the certificate children's roots (so a repeated reference to the
same child is allowed), and each child subtree agrees with the certificate,
its parent reference pointing back here. -/
inductive Fits (st : ChangeTreeSt) : Option Nat → PT → Prop where
  | mk (pi : Option Nat) (i : Nat) (cs : List PT) (nd : ChNode) :
      nd? st i = some nd →
      nd.parent = pi →
      keepFirsts nd.children = cs.map PT.top →
      (∀ c ∈ cs, Fits st (some i) c) →
      Fits st pi (PT.mk i cs)

theorem isVisited_true_iff (st : ChangeTreeSt) (V : List Nat) (i : Nat) :
    isVisited st V i = true ↔ ∃ v ∈ V, idAt st v = idAt st i := by
  simp [isVisited, List.any_eq_true]

theorem isVisited_false_iff (st : ChangeTreeSt) (V : List Nat) (i : Nat) :
    isVisited st V i = false ↔ ∀ v ∈ V, idAt st v ≠ idAt st i := by
  rw [← Bool.not_eq_true, isVisited_true_iff]
  simp

theorem isVisited_of_mem {st : ChangeTreeSt} {V : List Nat} {i : Nat} (h : i ∈ V) :
    isVisited st V i = true :=
  (isVisited_true_iff st V i).2 ⟨i, h, rfl⟩

/-- The move computed at the end of one loop iteration of
`ChangeTree.traverse`: first child whose id is not yet visited, else the
parent. -/
def nextOf (st : ChangeTreeSt) (i : Nat) (visited : List Nat) : Option Nat :=
  match (childrenAt st i).find? (fun c => !(isVisited st visited c)) with
  | some c => some c
  | none => (nd? st i).bind ChNode.parent

theorem traverseFuel_none (st : ChangeTreeSt) (fuel : Nat) (V : List Nat) :
    traverseFuel st fuel none V = some [] := by
  cases fuel <;> rfl

theorem traverseFuel_step_unvisited (st : ChangeTreeSt) (fuel i : Nat) (V : List Nat)
    (h : isVisited st V i = false) :
    traverseFuel st (fuel + 1) (some i) V =
      (traverseFuel st fuel (nextOf st i (V ++ [i])) (V ++ [i])).map
        (fun rest => i :: rest) := by
  simp [traverseFuel, h, nextOf]

theorem traverseFuel_step_visited (st : ChangeTreeSt) (fuel i : Nat) (V : List Nat)
    (h : isVisited st V i = true) :
    traverseFuel st (fuel + 1) (some i) V = traverseFuel st fuel (nextOf st i V) V := by
  simp [traverseFuel, h, nextOf]
theorem traverse_run :
    ∀ (n : Nat) (T : PT), T.size ≤ n →
      ∀ (st : ChangeTreeSt) (pi : Option Nat) (V : List Nat) (f : Nat),
        Fits st pi T →
        T.pre.Pairwise (fun a b => idAt st a ≠ idAt st b) →
        (∀ v ∈ V, ∀ t ∈ T.pre, idAt st v ≠ idAt st t) →
        traverseFuel st (T.cost + f) (some T.top) V =
          (traverseFuel st f pi (V ++ T.pre)).map (fun rest => T.pre ++ rest) := by
  intro n
  induction n with
  | zero =>
    intro T hsz
    cases T with
    | mk i cs =>
      exfalso
      simp [PT.size, PT.pre] at hsz
  | succ n ih =>
    intro T hsz st pi V f hfit hpair hdis
    cases T with
    | mk i cs =>
    cases hfit with
    | mk _ _ _ nd hnd hparent hkf hchild =>
    have hpreT : (PT.mk i cs).pre = i :: PT.preList cs := rfl
    have htop : (PT.mk i cs).top = i := rfl
    rw [hpreT] at hpair hdis
    obtain ⟨hheadpair, htailpair⟩ := List.pairwise_cons.1 hpair
    have hch : childrenAt st i = nd.children := by
      rw [childrenAt, hnd]
    have hmemchild : ∀ e ∈ nd.children, ∃ c ∈ cs, e = c.top := by
      intro e he
      have hm : e ∈ keepFirsts nd.children := (keepFirsts_mem _ e).2 he
      rw [hkf] at hm
      rcases List.mem_map.1 hm with ⟨c, hc, hce⟩
      exact ⟨c, hc, hce.symm⟩
    have hszchild : ∀ c ∈ cs, c.size ≤ n := by
      intro c hc
      have h2 : c.size ≤ (PT.preList cs).length :=
        (PT.pre_sublist_of_mem hc).length_le
      have h1 : (PT.mk i cs).size = (PT.preList cs).length + 1 := by
        simp [PT.size, PT.pre]
      omega
    -- the children phase: already at node i (visited), children csDone done
    have phase : ∀ (csTodo csDone : List PT) (V1 : List Nat) (g : Nat),
        cs = csDone ++ csTodo →
        V1 = V ++ i :: PT.preList csDone →
        traverseFuel st (PT.costList csTodo + csTodo.length + 1 + g) (some i) V1 =
          (traverseFuel st g pi (V1 ++ PT.preList csTodo)).map
            (fun rest => PT.preList csTodo ++ rest) := by
      intro csTodo
      induction csTodo with
      | nil =>
        intro csDone V1 g hcs hV1
        have hiv : isVisited st V1 i = true :=
          isVisited_of_mem
            (by rw [hV1]; exact List.mem_append_right _ (List.mem_cons_self _ _))
        have hfuel : PT.costList [] + ([] : List PT).length + 1 + g = g + 1 := by
          simp [PT.costList]
          omega
        rw [hfuel, traverseFuel_step_visited st g i V1 hiv]
        have hfind : (childrenAt st i).find? (fun e => !(isVisited st V1 e)) = none := by
          rw [hch, List.find?_eq_none]
          intro e he
          rcases hmemchild e he with ⟨c, hc, rfl⟩
          rw [hcs, List.append_nil] at hc
          have hmem : c.top ∈ V1 := by
            rw [hV1]
            exact List.mem_append_right _ (List.mem_cons_of_mem _
              ((PT.pre_sublist_of_mem hc).mem (PT.top_mem_pre c)))
          simp [isVisited_of_mem hmem]
        have hnext : nextOf st i V1 = pi := by
          rw [nextOf, hfind, hnd]
          simp [hparent]
        rw [hnext]
        simp [PT.preList]
      | cons c csTodo' ihc =>
        intro csDone V1 g hcs hV1
        have hcmem : c ∈ cs := by
          rw [hcs]
          exact List.mem_append_right _ (List.mem_cons_self _ _)
        have hfuel : PT.costList (c :: csTodo') + (c :: csTodo').length + 1 + g =
            (c.cost + (PT.costList csTodo' + csTodo'.length + 1 + g)) + 1 := by
          simp [PT.costList]
          omega
        have hiv : isVisited st V1 i = true :=
          isVisited_of_mem
            (by rw [hV1]; exact List.mem_append_right _ (List.mem_cons_self _ _))
        rw [hfuel, traverseFuel_step_visited st _ i V1 hiv]
        have hdone_vis : ∀ c' ∈ csDone, isVisited st V1 c'.top = true := by
          intro c' hc'
          apply isVisited_of_mem
          rw [hV1]
          exact List.mem_append_right _ (List.mem_cons_of_mem _
            ((PT.pre_sublist_of_mem hc').mem (PT.top_mem_pre c')))
        have htodo_unvis : ∀ t ∈ PT.preList (c :: csTodo'), isVisited st V1 t = false := by
          intro t ht
          rw [isVisited_false_iff]
          intro v hv
          have htcs : t ∈ PT.preList cs := by
            rw [hcs, PT.preList_append]
            exact List.mem_append_right _ ht
          rw [hV1] at hv
          rcases List.mem_append.1 hv with hvV | hvi
          · exact hdis v hvV t (List.mem_cons_of_mem _ htcs)
          · rcases List.mem_cons.1 hvi with rfl | hvd
            · exact hheadpair t htcs
            · have hP := htailpair
              rw [hcs, PT.preList_append, List.pairwise_append] at hP
              exact hP.2.2 v hvd t ht
        have hfind : (childrenAt st i).find? (fun e => !(isVisited st V1 e)) =
            some c.top := by
          rw [hch]
          have hsplit : keepFirsts nd.children =
              (csDone.map PT.top) ++ ((c :: csTodo').map PT.top) := by
            rw [hkf, hcs, List.map_append]
          have hnff := keepFirsts_nodup nd.children
          rw [hsplit, List.nodup_append] at hnff
          have hres := keepFirsts_find (fun e => !(isVisited st V1 e))
            (csDone.map PT.top) nd.children ((c :: csTodo').map PT.top) hsplit ?_
          · rw [hres]
            rfl
          · intro e he
            rcases hmemchild e he with ⟨c', hc', rfl⟩
            rw [hcs] at hc'
            rcases List.mem_append.1 hc' with hd | ht
            · have hvis := hdone_vis c' hd
              simp only [hvis, Bool.not_true]
              constructor
              · intro h
                exact absurd h Bool.false_ne_true
              · intro h
                exact absurd (List.mem_map_of_mem PT.top hd) h
            · have htop' : c'.top ∈ PT.preList (c :: csTodo') :=
                (PT.pre_sublist_of_mem ht).mem (PT.top_mem_pre c')
              have hunv := htodo_unvis c'.top htop'
              simp only [hunv, Bool.not_false]
              constructor
              · intro _ hmem
                exact hnff.2.2 hmem (List.mem_map_of_mem PT.top ht)
              · intro _
                trivial
        have hnext : nextOf st i V1 = some c.top := by
          rw [nextOf, hfind]
        rw [hnext]
        have hdisc : ∀ v ∈ V1, ∀ t ∈ c.pre, idAt st v ≠ idAt st t := by
          intro v hv t ht
          have htpre : t ∈ PT.preList (c :: csTodo') := by
            have : PT.preList (c :: csTodo') = c.pre ++ PT.preList csTodo' := rfl
            rw [this]
            exact List.mem_append_left _ ht
          have := htodo_unvis t htpre
          rw [isVisited_false_iff] at this
          exact this v hv
        have hpairc : c.pre.Pairwise (fun a b => idAt st a ≠ idAt st b) :=
          List.Pairwise.sublist (PT.pre_sublist_of_mem hcmem) htailpair
        have hihc := ih c (hszchild c hcmem) st (some i) V1
          (PT.costList csTodo' + csTodo'.length + 1 + g) (hchild c hcmem) hpairc hdisc
        rw [hihc]
        have hcs' : cs = (csDone ++ [c]) ++ csTodo' := by
          rw [hcs]
          simp
        have hV1' : V1 ++ c.pre = V ++ i :: PT.preList (csDone ++ [c]) := by
          rw [hV1, PT.preList_append]
          simp [PT.preList, List.append_assoc]
        have hphase' := ihc (csDone ++ [c]) (V1 ++ c.pre) g hcs' hV1'
        rw [hphase']
        simp only [Option.map_map]
        have hpl : PT.preList (c :: csTodo') = c.pre ++ PT.preList csTodo' := rfl
        rw [hpl]
        congr 1
        · funext rest
          simp [Function.comp, List.append_assoc]
        · simp [List.append_assoc]
    -- the first iteration of the loop on this subtree
    have hich : isVisited st V i = false := by
      rw [isVisited_false_iff]
      intro v hv
      exact hdis v hv i (List.mem_cons_self _ _)
    have hcostT : (PT.mk i cs).cost + f = (cs.length + PT.costList cs + f) + 1 := by
      simp [PT.cost]
      omega
    rw [htop, hcostT, traverseFuel_step_unvisited st _ i V hich]
    cases cs with
    | nil =>
      have hchempty : nd.children = [] := by
        have h := hkf
        rw [List.map_nil, keepFirsts_nil_iff] at h
        exact h
      have hnext : nextOf st i (V ++ [i]) = pi := by
        rw [nextOf, hch, hchempty]
        simp [hnd, hparent]
      rw [hnext]
      simp [PT.costList, PT.pre, PT.preList]
    | cons c cs' =>
      have hcmem : c ∈ c :: cs' := List.mem_cons_self _ _
      have hunvis1 : ∀ t ∈ PT.preList (c :: cs'), isVisited st (V ++ [i]) t = false := by
        intro t ht
        rw [isVisited_false_iff]
        intro v hv
        rcases List.mem_append.1 hv with hvV | hvi
        · exact hdis v hvV t (List.mem_cons_of_mem _ ht)
        · have hvi' : v = i := List.mem_singleton.1 hvi
          subst v
          exact hheadpair t ht
      have hfind : (childrenAt st i).find? (fun e => !(isVisited st (V ++ [i]) e)) =
          some c.top := by
        rw [hch]
        have hres := keepFirsts_find (fun e => !(isVisited st (V ++ [i]) e))
          [] nd.children ((c :: cs').map PT.top) (by rw [hkf]; rfl) ?_
        · rw [hres]
          rfl
        · intro e he
          rcases hmemchild e he with ⟨c', hc', rfl⟩
          have htop' : c'.top ∈ PT.preList (c :: cs') :=
            (PT.pre_sublist_of_mem hc').mem (PT.top_mem_pre c')
          simp [hunvis1 c'.top htop']
      have hnext : nextOf st i (V ++ [i]) = some c.top := by
        rw [nextOf, hfind]
      rw [hnext]
      have hfuel2 : (c :: cs').length + PT.costList (c :: cs') + f =
          c.cost + (PT.costList cs' + cs'.length + 1 + f) := by
        simp [PT.costList]
        omega
      rw [hfuel2]
      have hdisc : ∀ v ∈ V ++ [i], ∀ t ∈ c.pre, idAt st v ≠ idAt st t := by
        intro v hv t ht
        have htpre : t ∈ PT.preList (c :: cs') := by
          have hpl : PT.preList (c :: cs') = c.pre ++ PT.preList cs' := rfl
          rw [hpl]
          exact List.mem_append_left _ ht
        have := hunvis1 t htpre
        rw [isVisited_false_iff] at this
        exact this v hv
      have hpairc : c.pre.Pairwise (fun a b => idAt st a ≠ idAt st b) :=
        List.Pairwise.sublist (PT.pre_sublist_of_mem hcmem) htailpair
      have hihc := ih c (hszchild c hcmem) st (some i) (V ++ [i])
        (PT.costList cs' + cs'.length + 1 + f) (hchild c hcmem) hpairc hdisc
      rw [hihc]
      have hphase := phase cs' [c] ((V ++ [i]) ++ c.pre) f (by simp)
        (by simp [PT.preList, List.append_assoc])
      rw [hphase]
      simp only [Option.map_map]
      rw [show (PT.mk i (c :: cs')).pre = i :: (c.pre ++ PT.preList cs') from rfl]
      congr 1
      · funext rest
        simp [Function.comp, List.append_assoc]
      · simp [List.append_assoc]
/-- One stack frame of a tree-sitter cursor confined to a walked subtree:
the parent's index, the elder siblings (reversed) and the younger siblings
of the current focus. -/
structure ZFrame where
  parentIdx : Nat
  leftRev : List PT
  right : List PT

/-- A tree-sitter cursor position: the focused subtree and the stack of
frames up to the walk's root. -/
structure Zipper where
  focus : PT
  ctx : List ZFrame

/-- `cursor.goto_first_child()`. -/
def gotoFirstChild (z : Zipper) : Option Zipper :=
  match z.focus with
  | .mk i (c :: cs) => some ⟨c, ⟨i, [], cs⟩ :: z.ctx⟩
  | .mk _ [] => none

/-- `cursor.goto_next_sibling()`. -/
def gotoNextSibling (z : Zipper) : Option Zipper :=
  match z.ctx with
  | [] => none
  | fr :: rest =>
    match fr.right with
    | [] => none
    | c :: cs => some ⟨c, ⟨fr.parentIdx, z.focus :: fr.leftRev, cs⟩ :: rest⟩

/-- The retracing inner loop of `TreeSitterTree.traverse`: go to the
parent and try the next sibling, repeatedly; `none` when the walk's root
is reached (`goto_parent` failed and the final `goto_next_sibling` there
fails too, ending the outer loop). -/
def retrace : Zipper → Option Zipper
  | ⟨_, []⟩ => none
  | ⟨focus, fr :: rest⟩ =>
    match gotoNextSibling ⟨.mk fr.parentIdx (fr.leftRev.reverse ++ focus :: fr.right), rest⟩ with
    | some zs => some zs
    | none => retrace ⟨.mk fr.parentIdx (fr.leftRev.reverse ++ focus :: fr.right), rest⟩
termination_by z => z.ctx.length
decreasing_by
  simp

/-- `TreeSitterTree.traverse` with explicit fuel: yield the focus, then
descend to the first child if any, else move to the next sibling, else
retrace upwards; the sequence ends when retracing reaches the walk's
root. -/
def tsTraverse : Nat → Zipper → Option (List Nat)
  | 0, _ => none
  | fuel + 1, z =>
    (match gotoFirstChild z with
      | some z1 => tsTraverse fuel z1
      | none =>
        match gotoNextSibling z with
        | some z1 => tsTraverse fuel z1
        | none =>
          match retrace z with
          | some z1 => tsTraverse fuel z1
          | none => some []).map (fun rest => z.focus.top :: rest)

/-- The continuation after a finished subtree: resume at the next sibling,
else retrace; the empty sequence when the walk is over. -/
def tsAfter (fuel : Nat) (z : Zipper) : Option (List Nat) :=
  match gotoNextSibling z with
  | some z1 => tsTraverse fuel z1
  | none =>
    match retrace z with
    | some z1 => tsTraverse fuel z1
    | none => some []

theorem tsTraverse_succ (fuel : Nat) (z : Zipper) :
    tsTraverse (fuel + 1) z =
      (match gotoFirstChild z with
        | some z1 => tsTraverse fuel z1
        | none => tsAfter fuel z).map (fun rest => z.focus.top :: rest) := rfl

theorem tsAfter_no_sibling (g : Nat) (focus : PT) (pIdx : Nat) (leftRev : List PT)
    (rest : List ZFrame) :
    tsAfter g ⟨focus, ⟨pIdx, leftRev, []⟩ :: rest⟩ =
      tsAfter g ⟨.mk pIdx (leftRev.reverse ++ [focus]), rest⟩ := by
  have hns : gotoNextSibling ⟨focus, ⟨pIdx, leftRev, []⟩ :: rest⟩ = none := by
    simp [gotoNextSibling]
  have hretr : retrace ⟨focus, ⟨pIdx, leftRev, []⟩ :: rest⟩ =
      match gotoNextSibling (⟨.mk pIdx (leftRev.reverse ++ [focus]), rest⟩ : Zipper) with
      | some zs => some zs
      | none => retrace ⟨.mk pIdx (leftRev.reverse ++ [focus]), rest⟩ := by
    simp only [retrace]
  rw [tsAfter, tsAfter]
  simp only [hns, hretr]
  cases hs : gotoNextSibling (⟨.mk pIdx (leftRev.reverse ++ [focus]), rest⟩ : Zipper) with
  | none =>
    cases hr : retrace (⟨.mk pIdx (leftRev.reverse ++ [focus]), rest⟩ : Zipper) <;> rfl
  | some zs => rfl

/-- Size of a sibling list, counted by preorder length. -/
def PT.sizeList (l : List PT) : Nat := (PT.preList l).length

theorem tsTraverse_run :
    ∀ (n : Nat) (T : PT), T.size ≤ n →
      ∀ (ctx : List ZFrame) (f : Nat),
        tsTraverse (T.size + f) ⟨T, ctx⟩ =
          (tsAfter f ⟨T, ctx⟩).map (fun rest => T.pre ++ rest) := by
  intro n
  induction n with
  | zero =>
    intro T hsz
    cases T with
    | mk i cs => simp [PT.size, PT.pre] at hsz
  | succ n ih =>
    intro T hsz ctx f
    cases T with
    | mk i cs =>
    have hszchild : ∀ c ∈ cs, c.size ≤ n := by
      intro c hc
      have h2 : c.size ≤ (PT.preList cs).length :=
        (PT.pre_sublist_of_mem hc).length_le
      have h1 : (PT.mk i cs).size = (PT.preList cs).length + 1 := by
        simp [PT.size, PT.pre]
      omega
    have phase : ∀ (csTodo : List PT) (ccur : PT) (leftRev : List PT) (g : Nat),
        (∀ c ∈ csTodo, c.size ≤ n) → ccur.size ≤ n →
        leftRev.reverse ++ ccur :: csTodo = cs →
        tsTraverse (ccur.size + PT.sizeList csTodo + g)
            ⟨ccur, ⟨i, leftRev, csTodo⟩ :: ctx⟩ =
          (tsAfter g ⟨PT.mk i cs, ctx⟩).map
            (fun rest => ccur.pre ++ PT.preList csTodo ++ rest) := by
      intro csTodo
      induction csTodo with
      | nil =>
        intro ccur leftRev g hszs hszc hctx
        have hg : PT.sizeList [] + g = g := by
          simp [PT.sizeList, PT.preList]
        have hrun := ih ccur hszc (⟨i, leftRev, []⟩ :: ctx) g
        have hfuel : ccur.size + PT.sizeList [] + g = ccur.size + g := by
          simp [PT.sizeList, PT.preList]
        rw [hfuel, hrun]
        have hnos := tsAfter_no_sibling g ccur i leftRev ctx
        rw [hnos]
        have hplug : (PT.mk i (leftRev.reverse ++ [ccur])) = PT.mk i cs := by
          rw [← hctx]
        rw [hplug]
        congr 1
        funext rest
        simp [PT.preList]
      | cons c' rest' ihc =>
        intro ccur leftRev g hszs hszc hctx
        have hrun := ih ccur hszc (⟨i, leftRev, c' :: rest'⟩ :: ctx)
          (PT.sizeList (c' :: rest') + g)
        have hfuel : ccur.size + PT.sizeList (c' :: rest') + g =
            ccur.size + (PT.sizeList (c' :: rest') + g) := by
          omega
        rw [hfuel, hrun]
        have hns : gotoNextSibling ⟨ccur, ⟨i, leftRev, c' :: rest'⟩ :: ctx⟩ =
            some ⟨c', ⟨i, ccur :: leftRev, rest'⟩ :: ctx⟩ := by
          simp [gotoNextSibling]
        rw [tsAfter]
        simp only [hns]
        have hctx' : (ccur :: leftRev).reverse ++ c' :: rest' = cs := by
          rw [List.reverse_cons, List.append_assoc]
          simpa using hctx
        have hfuel2 : PT.sizeList (c' :: rest') + g =
            c'.size + PT.sizeList rest' + g := by
          simp [PT.sizeList, PT.preList, PT.size]
        rw [hfuel2]
        have hstep := ihc c' (ccur :: leftRev) g
          (fun c hc => hszs c (List.mem_cons_of_mem _ hc))
          (hszs c' (List.mem_cons_self _ _)) hctx'
        rw [hstep]
        simp only [Option.map_map]
        congr 1
        funext rest
        simp [Function.comp, PT.preList, List.append_assoc]
    -- outer: one iteration at the focus
    cases cs with
    | nil =>
      have hfc : gotoFirstChild ⟨PT.mk i [], ctx⟩ = none := by
        simp [gotoFirstChild]
      have hfuel : (PT.mk i []).size + f = f + 1 := by
        simp [PT.size, PT.pre, PT.preList]
        omega
      rw [hfuel, tsTraverse_succ]
      simp only [hfc]
      congr 1
    | cons c cs' =>
      have hfc : gotoFirstChild ⟨PT.mk i (c :: cs'), ctx⟩ =
          some ⟨c, ⟨i, [], cs'⟩ :: ctx⟩ := by
        simp [gotoFirstChild]
      have hfuel : (PT.mk i (c :: cs')).size + f =
          (c.size + PT.sizeList cs' + f) + 1 := by
        simp [PT.size, PT.pre, PT.preList, PT.sizeList]
        omega
      rw [hfuel, tsTraverse_succ]
      simp only [hfc]
      have hstep := phase cs' c [] f
        (fun d hd => hszchild d (List.mem_cons_of_mem _ hd))
        (hszchild c (List.mem_cons_self _ _)) (by simp)
      rw [hstep]
      simp only [Option.map_map]
      congr 1
/-- C6 (amended): on a well-formed tree — where a `children` list may
contain a repeated reference to the same child, but no child is shared by
two different parents — `ChangeTree.traverse` terminates and yields the
tree's nodes exactly once each, in depth-first order; and
`TreeSitterTree.traverse` yields the walked subtree's nodes exactly once
and terminates. -/
theorem traverse_tree_complete_terminates :
    (∀ (st : ChangeTreeSt) (T : PT) (rt : Nat),
        st.root = some rt → T.top = rt → Fits st none T →
        T.pre.Pairwise (fun a b => idAt st a ≠ idAt st b) →
        traverseFuel st (T.cost + 1) st.root [] = some T.pre ∧
        T.pre.length = T.size ∧ T.pre.Nodup) ∧
    (∀ (T : PT) (f : Nat),
        tsTraverse (T.size + f) ⟨T, []⟩ = some T.pre ∧
        T.pre.length = T.size) := by
  constructor
  · intro st T rt hroot htopr hfit hpair
    have hrun := traverse_run T.size T (le_refl _) st none [] 1 hfit hpair
      (by intro v hv; cases hv)
    rw [traverseFuel_none] at hrun
    simp only [Option.map_some', List.nil_append, List.append_nil] at hrun
    refine ⟨?_, rfl, ?_⟩
    · rw [hroot, ← htopr]
      exact hrun
    · exact hpair.imp (fun h heq => h (by rw [heq]))
  · intro T f
    have hrun := tsTraverse_run T.size T (le_refl _) [] f
    have hafter : tsAfter f (⟨T, []⟩ : Zipper) = some [] := by
      rw [tsAfter]
      have h1 : gotoNextSibling (⟨T, []⟩ : Zipper) = none := by
        simp [gotoNextSibling]
      have h2 : retrace (⟨T, []⟩ : Zipper) = none := by
        simp only [retrace]
      simp only [h1, h2]
    rw [hafter] at hrun
    simp only [Option.map_some', List.append_nil] at hrun
    exact ⟨hrun, rfl⟩

/-- A concrete change-tree node for pointer-graph instances. -/
def cn (s : String) (par : Option Nat) (ch : List Nat) : ChNode :=
  { id := s, child_rank := 0, type := s, value := none, parent := par, children := ch }

/-- A six-node graph built from the tree R(A(E), B(X, D)) by duplicating a
child link so that X is shared by the two parents A and B (X's parent
reference points at B). -/
def cexSt : ChangeTreeSt :=
  { nodes := [cn "R" none [1, 2], cn "A" (some 0) [3, 4], cn "B" (some 0) [3, 5],
              cn "X" (some 2) [], cn "E" (some 1) [], cn "D" (some 2) []],
    root := some 0 }

/-- C6 counterexample: with one child node shared by two parents the
traversal still terminates but yields 5 of the 6 nodes — node 4 (E) is
never yielded — so it does not yield exactly N nodes. -/
theorem traverse_shared_child_misses_node :
    traverseFuel cexSt 50 cexSt.root [] = some [0, 1, 3, 2, 5] ∧
    cexSt.nodes.length = 6 ∧
    ([0, 1, 3, 2, 5] : List Nat).length ≠ cexSt.nodes.length ∧
    4 ∉ ([0, 1, 3, 2, 5] : List Nat) := by
  refine ⟨by decide, by decide, by decide, by decide⟩

/-- A concrete well-formed two-node change tree: root r with child a. -/
def wfDemoSt : ChangeTreeSt :=
  { nodes := [cn "r" none [1], cn "a" (some 0) []], root := some 0 }

/-- Witness for C6 on a concrete two-node change tree whose certificate is
root 0 with single child 1: the traversal yields [0, 1]. -/
theorem traverse_tree_complete_terminates_witness :
    traverseFuel wfDemoSt ((PT.mk 0 [PT.mk 1 []]).cost + 1)
      (some 0) [] = some [0, 1] ∧
    (PT.mk 0 [PT.mk 1 []]).pre.Nodup := by
  have h := traverse_tree_complete_terminates.1 wfDemoSt
    (PT.mk 0 [PT.mk 1 []]) 0 rfl rfl
    (by
      refine Fits.mk none 0 [PT.mk 1 []] (cn "r" none [1]) rfl rfl ?_ ?_
      · simp [wfDemoSt, cn, keepFirsts, PT.top]
      · intro c hc
        have hc' : c = PT.mk 1 [] := by simpa using hc
        subst hc'
        refine Fits.mk (some 0) 1 [] (cn "a" (some 0) []) rfl rfl ?_ ?_
        · simp [wfDemoSt, cn, keepFirsts]
        · intro c hc
          cases hc)
    (by
      simp [PT.pre, PT.preList, idAt, nd?, wfDemoSt, cn])
  refine ⟨?_, h.2.2⟩
  have h1 := h.1
  simpa [PT.pre, PT.preList] using h1
theorem find?_append_some {α : Type} (l1 l2 : List α) (p : α → Bool) (a : α)
    (h : l1.find? p = some a) : (l1 ++ l2).find? p = some a := by
  induction l1 with
  | nil => simp [List.find?] at h
  | cons x xs ih =>
    cases hp : p x
    · rw [List.find?_cons_of_neg _ (by simp [hp])] at h
      rw [List.cons_append, List.find?_cons_of_neg _ (by simp [hp])]
      exact ih h
    · rw [List.find?_cons_of_pos _ hp] at h
      rw [List.cons_append, List.find?_cons_of_pos _ hp]
      exact h

theorem find?_append_none {α : Type} (l1 l2 : List α) (p : α → Bool)
    (h : l1.find? p = none) : (l1 ++ l2).find? p = l2.find? p := by
  induction l1 with
  | nil => simp
  | cons x xs ih =>
    rw [List.find?_eq_none] at h
    have hp : p x = false := by
      cases hp : p x
      · rfl
      · exact absurd hp (h x (List.mem_cons_self x xs))
    rw [List.cons_append, List.find?_cons_of_neg _ (by simp [hp])]
    refine ih ?_
    rw [List.find?_eq_none]
    intro y hy
    exact h y (List.mem_cons_of_mem x hy)

/-- Walk from arena node `i` following child ids, as `add_root_path`'s
cursor does. -/
def walkIds (st : ChangeTreeSt) : Nat → List String → Option Nat
  | i, [] => some i
  | i, x :: xs =>
    match findChildIdx st i x with
    | some c => walkIds st c xs
    | none => none

/-- Locate the node realizing an identity-sequence prefix, starting at the
root. -/
def lookupRoot (st : ChangeTreeSt) : List String → Option Nat
  | [] => none
  | r :: rest =>
    match st.root with
    | none => none
    | some rt => if idAt st rt = some r then walkIds st rt rest else none

/-- All nonempty prefixes of an identity sequence. -/
def idPrefixes (p : List String) : List (List String) :=
  (List.range p.length).map (fun k => p.take (k + 1))

/-- All nonempty prefixes of a list of identity sequences. -/
def allPrefixes (ps : List (List String)) : Finset (List String) :=
  (ps.bind idPrefixes).toFinset

/-- The prefixes added when the cursor at `consumed` walks `ids`. -/
def extPrefixes (consumed : List String) (ids : List String) : Finset (List String) :=
  ((List.range ids.length).map (fun k => consumed ++ ids.take (k + 1))).toFinset

theorem mem_extPrefixes {consumed q : List String} {ids : List String} :
    q ∈ extPrefixes consumed ids ↔ ∃ k < ids.length, q = consumed ++ ids.take (k + 1) := by
  simp [extPrefixes, eq_comm]

theorem extPrefixes_nil (consumed : List String) : extPrefixes consumed [] = ∅ := by
  simp [extPrefixes]

theorem extPrefixes_cons (consumed : List String) (x : String) (ids : List String) :
    extPrefixes consumed (x :: ids) =
      insert (consumed ++ [x]) (extPrefixes (consumed ++ [x]) ids) := by
  apply Finset.ext
  intro q
  rw [mem_extPrefixes, Finset.mem_insert, mem_extPrefixes]
  constructor
  · rintro ⟨k, hk, rfl⟩
    cases k with
    | zero => exact Or.inl (by simp)
    | succ j =>
      refine Or.inr ⟨j, by simpa using hk, ?_⟩
      simp [List.take_succ_cons]
  · rintro (rfl | ⟨j, hj, rfl⟩)
    · exact ⟨0, by simp, by simp⟩
    · exact ⟨j + 1, by simpa using hj, by simp [List.take_succ_cons]⟩

theorem idPrefixes_toFinset (ids : List String) :
    (idPrefixes ids).toFinset = extPrefixes [] ids := by
  simp [idPrefixes, extPrefixes]

/-- The lookup invariant tying an arena to the set `P` of identity-sequence
prefixes it realizes. -/
def LookupInv (st : ChangeTreeSt) (P : Finset (List String)) : Prop :=
  (st.nodes.length = P.card) ∧
  (∀ p : List String, (lookupRoot st p).isSome ↔ p ∈ P) ∧
  (∀ p q : List String, ∀ i : Nat,
      lookupRoot st p = some i → lookupRoot st q = some i → p = q) ∧
  (∀ j nd, nd? st j = some nd → ∀ c ∈ nd.children, c < st.nodes.length) ∧
  (∀ rt, st.root = some rt → rt < st.nodes.length)

theorem walkIds_append (st : ChangeTreeSt) (y : String) :
    ∀ (p : List String) (j : Nat),
      walkIds st j (p ++ [y]) = (walkIds st j p).bind (fun c => findChildIdx st c y) := by
  intro p
  induction p with
  | nil =>
    intro j
    rw [List.nil_append, walkIds]
    show (match findChildIdx st j y with
      | some c => walkIds st c []
      | none => none) = findChildIdx st j y
    cases findChildIdx st j y with
    | none => rfl
    | some c => rfl
  | cons x xs ih =>
    intro j
    rw [List.cons_append, walkIds, walkIds]
    cases findChildIdx st j x with
    | none => rfl
    | some c => exact ih c

theorem lookupRoot_append (st : ChangeTreeSt) (y : String) (p : List String)
    (hp : p ≠ []) :
    lookupRoot st (p ++ [y]) = (lookupRoot st p).bind (fun c => findChildIdx st c y) := by
  cases p with
  | nil => exact absurd rfl hp
  | cons r rest =>
    rw [List.cons_append, lookupRoot, lookupRoot]
    cases st.root with
    | none => rfl
    | some rt =>
      by_cases hid : idAt st rt = some r
      · simp only [hid, if_pos]
        exact walkIds_append st y rest rt
      · simp only [if_neg hid]
        rfl

theorem walkIds_lt (st : ChangeTreeSt)
    (hd : ∀ j nd, nd? st j = some nd → ∀ c ∈ nd.children, c < st.nodes.length) :
    ∀ (p : List String) (j k : Nat), j < st.nodes.length →
      walkIds st j p = some k → k < st.nodes.length := by
  intro p
  induction p with
  | nil =>
    intro j k hj h
    rw [walkIds] at h
    cases h
    exact hj
  | cons x xs ih =>
    intro j k hj h
    rw [walkIds] at h
    cases hfc : findChildIdx st j x with
    | none => rw [hfc] at h; exact Option.noConfusion h
    | some c =>
      rw [hfc] at h
      have hcmem := List.mem_of_find?_eq_some hfc
      have hc : c < st.nodes.length := by
        obtain ⟨nd, hnd⟩ := nd?_isSome_of_lt hj
        rw [childrenAt, hnd] at hcmem
        exact hd j nd hnd c hcmem
      exact ih c k hc h

theorem lookupRoot_lt (st : ChangeTreeSt) (P : Finset (List String))
    (hinv : LookupInv st P) :
    ∀ (p : List String) (k : Nat), lookupRoot st p = some k → k < st.nodes.length := by
  obtain ⟨-, -, -, hd, he⟩ := hinv
  intro p k h
  cases p with
  | nil => exact Option.noConfusion h
  | cons r rest =>
    rw [lookupRoot] at h
    cases hrt : st.root with
    | none =>
      simp only [hrt] at h
      exact Option.noConfusion h
    | some rt =>
      simp only [hrt] at h
      by_cases hid : idAt st rt = some r
      · rw [if_pos hid] at h
        exact walkIds_lt st hd rest rt k (he rt hrt) h
      · rw [if_neg hid] at h
        exact Option.noConfusion h
theorem find?_congr {α : Type} (l : List α) (p q : α → Bool)
    (h : ∀ a ∈ l, p a = q a) : l.find? p = l.find? q := by
  induction l with
  | nil => rfl
  | cons a l ih =>
    cases hp : p a
    · rw [List.find?_cons_of_neg _ (by simp [hp]),
        List.find?_cons_of_neg _ (by simp [← h a (List.mem_cons_self a l), hp])]
      exact ih fun b hb => h b (List.mem_cons_of_mem a hb)
    · rw [List.find?_cons_of_pos _ hp,
        List.find?_cons_of_pos _ (by rw [← h a (List.mem_cons_self a l)]; exact hp)]

/-- The arena after `add_root_path` allocates a fresh child of node `i`
for path node `x`: the new node is appended (with `parent := i`,
no children) and registered as last child of `i`. -/
def createSt (st : ChangeTreeSt) (i : Nat) (x : TSNode) : ChangeTreeSt :=
  { nodes := appendChildAt (st.nodes ++ [{ freshNode x with parent := some i }])
      i st.nodes.length,
    root := st.root }

theorem addLoop_create (st : ChangeTreeSt) (parent : Nat) (x : TSNode) (xs : List TSNode)
    (hfind : findChildIdx st parent x.id = none) :
    addLoop st parent (x :: xs) = addLoop (createSt st parent x) st.nodes.length xs := by
  simp only [addLoop, hfind, createSt]

theorem addLoop_found (st : ChangeTreeSt) (parent c : Nat) (x : TSNode) (xs : List TSNode)
    (hfind : findChildIdx st parent x.id = some c) :
    addLoop st parent (x :: xs) = addLoop st c xs := by
  simp only [addLoop, hfind]

theorem createSt_len (st : ChangeTreeSt) (i : Nat) (x : TSNode)
    (_hp : i < st.nodes.length) :
    (createSt st i x).nodes.length = st.nodes.length + 1 := by
  rw [createSt]
  simp only [appendChildAt]
  cases h : (st.nodes ++ [{ freshNode x with parent := some i }])[i]? with
  | none => simp
  | some nd => simp

theorem createSt_root (st : ChangeTreeSt) (i : Nat) (x : TSNode) :
    (createSt st i x).root = st.root := rfl

theorem createSt_nd_other (st : ChangeTreeSt) (i : Nat) (x : TSNode)
    {j : Nat} (hj : j < st.nodes.length) (hij : j ≠ i) :
    nd? (createSt st i x) j = nd? st j := by
  rw [nd?, createSt]
  simp only [appendChildAt]
  cases h : (st.nodes ++ [{ freshNode x with parent := some i }])[i]? with
  | none =>
    simp only
    rw [List.getElem?_append_left hj]
    rfl
  | some nd =>
    simp only
    rw [List.getElem?_set_ne (Ne.symm hij), List.getElem?_append_left hj]
    rfl

theorem createSt_nd_i (st : ChangeTreeSt) (i : Nat) (x : TSNode)
    {nd0 : ChNode} (hnd0 : nd? st i = some nd0) :
    nd? (createSt st i x) i =
      some { nd0 with children := nd0.children ++ [st.nodes.length] } := by
  have hp : i < st.nodes.length := lt_of_nd?_isSome hnd0
  rw [nd?, createSt]
  simp only [appendChildAt]
  have happ : (st.nodes ++ [{ freshNode x with parent := some i }])[i]? = some nd0 := by
    rw [List.getElem?_append_left hp]
    exact hnd0
  rw [happ]
  simp only
  rw [List.getElem?_set_eq (by simp; omega)]

theorem createSt_nd_m (st : ChangeTreeSt) (i : Nat) (x : TSNode)
    (hp : i < st.nodes.length) :
    nd? (createSt st i x) st.nodes.length =
      some { freshNode x with parent := some i } := by
  rw [nd?, createSt]
  simp only [appendChildAt]
  have happ : (st.nodes ++ [{ freshNode x with parent := some i }])[i]? =
      some st.nodes[i] := by
    rw [List.getElem?_append_left hp]
    exact List.getElem?_eq_getElem hp
  rw [happ]
  simp only
  rw [List.getElem?_set_ne (by omega), List.getElem?_append_right (le_refl _)]
  simp

theorem createSt_id (st : ChangeTreeSt) (i : Nat) (x : TSNode)
    {nd0 : ChNode} (hnd0 : nd? st i = some nd0) :
    ∀ j, j < st.nodes.length → idAt (createSt st i x) j = idAt st j := by
  intro j hj
  by_cases hij : j = i
  · subst j
    rw [idAt, createSt_nd_i st i x hnd0, idAt, hnd0]
    rfl
  · rw [idAt, createSt_nd_other st i x hj hij, idAt]

theorem createSt_id_m (st : ChangeTreeSt) (i : Nat) (x : TSNode)
    (hp : i < st.nodes.length) :
    idAt (createSt st i x) st.nodes.length = some x.id := by
  rw [idAt, createSt_nd_m st i x hp]
  simp [freshNode]
theorem createSt_find_other (st : ChangeTreeSt) (i : Nat) (x : TSNode)
    {nd0 : ChNode} (hnd0 : nd? st i = some nd0)
    (hD : ∀ j nd, nd? st j = some nd → ∀ c ∈ nd.children, c < st.nodes.length)
    {j : Nat} (hj : j < st.nodes.length) (hij : j ≠ i) (y : String) :
    findChildIdx (createSt st i x) j y = findChildIdx st j y := by
  obtain ⟨ndj, hndj⟩ := nd?_isSome_of_lt hj
  rw [findChildIdx, findChildIdx, childrenAt, childrenAt,
    createSt_nd_other st i x hj hij, hndj]
  refine find?_congr _ _ _ ?_
  intro c hc
  have hc' : c < st.nodes.length := hD j ndj hndj c hc
  rw [createSt_id st i x hnd0 c hc']

theorem createSt_find_i (st : ChangeTreeSt) (i : Nat) (x : TSNode)
    {nd0 : ChNode} (hnd0 : nd? st i = some nd0)
    (hD : ∀ j nd, nd? st j = some nd → ∀ c ∈ nd.children, c < st.nodes.length)
    (y : String) :
    findChildIdx (createSt st i x) i y =
      match findChildIdx st i y with
      | some c => some c
      | none => if y = x.id then some st.nodes.length else none := by
  have hp : i < st.nodes.length := lt_of_nd?_isSome hnd0
  rw [findChildIdx, childrenAt, createSt_nd_i st i x hnd0]
  simp only
  have hcongr : (nd0.children).find?
        (fun c => decide (idAt (createSt st i x) c = some y)) =
      (nd0.children).find? (fun c => decide (idAt st c = some y)) := by
    refine find?_congr _ _ _ ?_
    intro c hc
    have hc' : c < st.nodes.length := hD i nd0 hnd0 c hc
    rw [createSt_id st i x hnd0 c hc']
  cases hfo : findChildIdx st i y with
  | some c =>
    simp only [findChildIdx, childrenAt, hnd0] at hfo
    exact find?_append_some _ _ _ c (hcongr.trans hfo)
  | none =>
    simp only [findChildIdx, childrenAt, hnd0] at hfo
    rw [find?_append_none _ _ _ (hcongr.trans hfo)]
    by_cases hy : y = x.id
    · subst hy
      rw [List.find?_cons_of_pos _ (by simp [createSt_id_m st i x hp])]
      simp
    · rw [List.find?_cons_of_neg _ (by
        simp [createSt_id_m st i x hp, Ne.symm hy]), List.find?_nil]
      simp [hy]

theorem createSt_find_m (st : ChangeTreeSt) (i : Nat) (x : TSNode)
    (hp : i < st.nodes.length) (y : String) :
    findChildIdx (createSt st i x) st.nodes.length y = none := by
  rw [findChildIdx, childrenAt, createSt_nd_m st i x hp]
  simp [freshNode]
theorem createSt_walk_preserved (st : ChangeTreeSt) (i : Nat) (x : TSNode)
    {nd0 : ChNode} (hnd0 : nd? st i = some nd0)
    (hD : ∀ j nd, nd? st j = some nd → ∀ c ∈ nd.children, c < st.nodes.length) :
    ∀ (p : List String) (j k : Nat), j < st.nodes.length →
      walkIds st j p = some k → walkIds (createSt st i x) j p = some k := by
  intro p
  induction p with
  | nil =>
    intro j k hj h
    rw [walkIds] at h ⊢
    exact h
  | cons y ys ih =>
    intro j k hj h
    rw [walkIds] at h
    cases hfc : findChildIdx st j y with
    | none =>
      rw [hfc] at h
      exact Option.noConfusion h
    | some c =>
      rw [hfc] at h
      obtain ⟨ndj, hndj⟩ := nd?_isSome_of_lt hj
      have hcmem := List.mem_of_find?_eq_some hfc
      rw [childrenAt, hndj] at hcmem
      have hc : c < st.nodes.length := hD j ndj hndj c hcmem
      have hfc' : findChildIdx (createSt st i x) j y = some c := by
        by_cases hij : j = i
        · subst j
          rw [createSt_find_i st i x hnd0 hD y, hfc]
        · rw [createSt_find_other st i x hnd0 hD hj hij y]
          exact hfc
      rw [walkIds, hfc']
      exact ih c k hc h

theorem createSt_walk_charn (st : ChangeTreeSt) (i : Nat) (x : TSNode)
    {nd0 : ChNode} (hnd0 : nd? st i = some nd0)
    (hD : ∀ j nd, nd? st j = some nd → ∀ c ∈ nd.children, c < st.nodes.length) :
    ∀ (p : List String) (j k : Nat), j < st.nodes.length →
      walkIds (createSt st i x) j p = some k →
      (walkIds st j p = some k ∧ k < st.nodes.length) ∨
      (∃ p1, p = p1 ++ [x.id] ∧ walkIds st j p1 = some i ∧ k = st.nodes.length) := by
  intro p
  induction p with
  | nil =>
    intro j k hj h
    rw [walkIds] at h
    cases h
    exact Or.inl ⟨rfl, hj⟩
  | cons y ys ih =>
    intro j k hj h
    rw [walkIds] at h
    by_cases hij : j = i
    · subst j
      rw [createSt_find_i st i x hnd0 hD y] at h
      cases hfo : findChildIdx st i y with
      | some c =>
        rw [hfo] at h
        simp only at h
        have hcmem := List.mem_of_find?_eq_some hfo
        rw [childrenAt, hnd0] at hcmem
        have hc : c < st.nodes.length := hD i nd0 hnd0 c hcmem
        rcases ih c k hc h with ⟨hw, hk⟩ | ⟨p1, rfl, hw, hk⟩
        · exact Or.inl ⟨by simp only [walkIds, hfo]; exact hw, hk⟩
        · exact Or.inr ⟨y :: p1, rfl, by simp only [walkIds, hfo]; exact hw, hk⟩
      | none =>
        rw [hfo] at h
        simp only at h
        by_cases hy : y = x.id
        · rw [if_pos hy] at h
          subst hy
          simp only at h
          cases ys with
          | nil =>
            rw [walkIds] at h
            cases h
            exact Or.inr ⟨[], rfl, rfl, rfl⟩
          | cons z zs =>
            rw [walkIds] at h
            rw [createSt_find_m st i x (lt_of_nd?_isSome hnd0) z] at h
            exact Option.noConfusion h
        · rw [if_neg hy] at h
          exact Option.noConfusion h
    · rw [createSt_find_other st i x hnd0 hD hj hij y] at h
      cases hfo : findChildIdx st j y with
      | none =>
        rw [hfo] at h
        exact Option.noConfusion h
      | some c =>
        rw [hfo] at h
        obtain ⟨ndj, hndj⟩ := nd?_isSome_of_lt hj
        have hcmem := List.mem_of_find?_eq_some hfo
        rw [childrenAt, hndj] at hcmem
        have hc : c < st.nodes.length := hD j ndj hndj c hcmem
        rcases ih c k hc h with ⟨hw, hk⟩ | ⟨p1, rfl, hw, hk⟩
        · exact Or.inl ⟨by simp only [walkIds, hfo]; exact hw, hk⟩
        · exact Or.inr ⟨y :: p1, rfl, by simp only [walkIds, hfo]; exact hw, hk⟩
theorem createSt_lookup_preserved (st : ChangeTreeSt) (i : Nat) (x : TSNode)
    {nd0 : ChNode} (hnd0 : nd? st i = some nd0)
    (hD : ∀ j nd, nd? st j = some nd → ∀ c ∈ nd.children, c < st.nodes.length)
    (hE : ∀ rt, st.root = some rt → rt < st.nodes.length) :
    ∀ (p : List String) (k : Nat), lookupRoot st p = some k →
      lookupRoot (createSt st i x) p = some k := by
  intro p k h
  cases p with
  | nil => exact Option.noConfusion h
  | cons r rest =>
    rw [lookupRoot] at h ⊢
    rw [createSt_root]
    cases hrt : st.root with
    | none =>
      simp only [hrt] at h
      exact Option.noConfusion h
    | some rt =>
      simp only [hrt] at h ⊢
      have hrtlen : rt < st.nodes.length := hE rt hrt
      by_cases hid : idAt st rt = some r
      · rw [if_pos hid] at h
        rw [if_pos (by rw [createSt_id st i x hnd0 rt hrtlen]; exact hid)]
        exact createSt_walk_preserved st i x hnd0 hD rest rt k hrtlen h
      · rw [if_neg hid] at h
        exact Option.noConfusion h

theorem createSt_lookup_new (st : ChangeTreeSt) (i : Nat) (x : TSNode)
    {nd0 : ChNode} (hnd0 : nd? st i = some nd0)
    (hD : ∀ j nd, nd? st j = some nd → ∀ c ∈ nd.children, c < st.nodes.length)
    (hE : ∀ rt, st.root = some rt → rt < st.nodes.length)
    (hfcnone : findChildIdx st i x.id = none)
    (consumed : List String) (hne : consumed ≠ [])
    (hcons : lookupRoot st consumed = some i) :
    lookupRoot (createSt st i x) (consumed ++ [x.id]) = some st.nodes.length := by
  rw [lookupRoot_append _ _ _ hne,
    createSt_lookup_preserved st i x hnd0 hD hE consumed i hcons]
  have hred : (some i).bind (fun c => findChildIdx (createSt st i x) c x.id) =
      findChildIdx (createSt st i x) i x.id := rfl
  rw [hred, createSt_find_i st i x hnd0 hD x.id, hfcnone]
  simp

theorem createSt_lookup_charn (st : ChangeTreeSt) (i : Nat) (x : TSNode)
    {nd0 : ChNode} (hnd0 : nd? st i = some nd0)
    (hD : ∀ j nd, nd? st j = some nd → ∀ c ∈ nd.children, c < st.nodes.length)
    (hE : ∀ rt, st.root = some rt → rt < st.nodes.length)
    (hinj : ∀ p q : List String, ∀ j : Nat,
      lookupRoot st p = some j → lookupRoot st q = some j → p = q)
    (consumed : List String) (hcons : lookupRoot st consumed = some i) :
    ∀ (p : List String) (k : Nat), lookupRoot (createSt st i x) p = some k →
      (lookupRoot st p = some k ∧ k < st.nodes.length) ∨
      (p = consumed ++ [x.id] ∧ k = st.nodes.length) := by
  intro p k h
  cases p with
  | nil => exact Option.noConfusion h
  | cons r rest =>
    rw [lookupRoot, createSt_root] at h
    cases hrt : st.root with
    | none =>
      simp only [hrt] at h
      exact Option.noConfusion h
    | some rt =>
      simp only [hrt] at h
      have hrtlen : rt < st.nodes.length := hE rt hrt
      by_cases hid : idAt st rt = some r
      · rw [if_pos (by rw [createSt_id st i x hnd0 rt hrtlen]; exact hid)] at h
        rcases createSt_walk_charn st i x hnd0 hD rest rt k hrtlen h with
          ⟨hw, hk⟩ | ⟨p1, hrest, hw, hk⟩
        · refine Or.inl ⟨?_, hk⟩
          rw [lookupRoot]
          simp only [hrt]
          rw [if_pos hid]
          exact hw
        · have hl1 : lookupRoot st (r :: p1) = some i := by
            rw [lookupRoot]
            simp only [hrt]
            rw [if_pos hid]
            exact hw
          have := hinj (r :: p1) consumed i hl1 hcons
          refine Or.inr ⟨?_, hk⟩
          rw [hrest, ← this]
          rfl
      · rw [if_neg (by rw [createSt_id st i x hnd0 rt hrtlen]; exact hid)] at h
        exact Option.noConfusion h
theorem createSt_lookupInv (st : ChangeTreeSt) (i : Nat) (x : TSNode)
    (P : Finset (List String)) (hinv : LookupInv st P)
    (consumed : List String) (hne : consumed ≠ [])
    (hcons : lookupRoot st consumed = some i)
    (hfcnone : findChildIdx st i x.id = none) :
    LookupInv (createSt st i x) (insert (consumed ++ [x.id]) P) ∧
    lookupRoot (createSt st i x) (consumed ++ [x.id]) = some st.nodes.length ∧
    (createSt st i x).root = st.root := by
  obtain ⟨ha, hb, hc, hd, he⟩ := hinv
  have hi_lt : i < st.nodes.length :=
    lookupRoot_lt st P ⟨ha, hb, hc, hd, he⟩ consumed i hcons
  obtain ⟨nd0, hnd0⟩ := nd?_isSome_of_lt hi_lt
  have hnew_notin : consumed ++ [x.id] ∉ P := by
    rw [← hb, lookupRoot_append st x.id consumed hne, hcons]
    have hred : (some i).bind (fun c => findChildIdx st c x.id) =
        findChildIdx st i x.id := rfl
    rw [hred, hfcnone]
    simp
  have hnew := createSt_lookup_new st i x hnd0 hd he hfcnone consumed hne hcons
  have hcharn := createSt_lookup_charn st i x hnd0 hd he hc consumed hcons
  have hpres := createSt_lookup_preserved st i x hnd0 hd he
  refine ⟨⟨?_, ?_, ?_, ?_, ?_⟩, hnew, rfl⟩
  · rw [createSt_len st i x hi_lt, Finset.card_insert_of_not_mem hnew_notin, ha]
  · intro p
    constructor
    · intro hp
      obtain ⟨k, hk⟩ := Option.isSome_iff_exists.1 hp
      rcases hcharn p k hk with ⟨hold, -⟩ | ⟨rfl, -⟩
      · exact Finset.mem_insert_of_mem ((hb p).1 (by rw [hold]; rfl))
      · exact Finset.mem_insert_self _ _
    · intro hp
      rcases Finset.mem_insert.1 hp with rfl | hp
      · rw [hnew]
        rfl
      · obtain ⟨k, hk⟩ := Option.isSome_iff_exists.1 ((hb p).2 hp)
        rw [hpres p k hk]
        rfl
  · intro p q k hp hq
    rcases hcharn p k hp with ⟨hpo, hklt⟩ | ⟨rfl, rfl⟩
    · rcases hcharn q k hq with ⟨hqo, -⟩ | ⟨rfl, hkm⟩
      · exact hc p q k hpo hqo
      · omega
    · rcases hcharn q _ hq with ⟨-, hklt⟩ | ⟨rfl, -⟩
      · omega
      · rfl
  · intro j nd hnd c hcmem
    rw [createSt_len st i x hi_lt]
    have hjlt : j < st.nodes.length + 1 := by
      have := lt_of_nd?_isSome hnd
      rwa [createSt_len st i x hi_lt] at this
    by_cases hjm : j = st.nodes.length
    · subst j
      rw [createSt_nd_m st i x hi_lt] at hnd
      cases hnd
      simp [freshNode] at hcmem
    · have hj : j < st.nodes.length := by omega
      by_cases hji : j = i
      · subst j
        rw [createSt_nd_i st i x hnd0] at hnd
        cases hnd
        simp only [List.mem_append, List.mem_singleton] at hcmem
        rcases hcmem with hco | rfl
        · have := hd i nd0 hnd0 c hco
          omega
        · omega
      · rw [createSt_nd_other st i x hj hji] at hnd
        have := hd j nd hnd c hcmem
        omega
  · intro rt hrt
    rw [createSt_root] at hrt
    have := he rt hrt
    rw [createSt_len st i x hi_lt]
    omega
theorem addLoop_lookupInv :
    ∀ (xs : List TSNode) (st : ChangeTreeSt) (P : Finset (List String))
      (consumed : List String) (cursor : Nat),
      LookupInv st P → consumed ≠ [] → lookupRoot st consumed = some cursor →
      LookupInv (addLoop st cursor xs) (P ∪ extPrefixes consumed (xs.map TSNode.id)) ∧
      (addLoop st cursor xs).root = st.root := by
  intro xs
  induction xs with
  | nil =>
    intro st P consumed cursor hinv hne hcons
    rw [addLoop, List.map_nil, extPrefixes_nil, Finset.union_empty]
    exact ⟨hinv, rfl⟩
  | cons x xs ih =>
    intro st P consumed cursor hinv hne hcons
    rw [List.map_cons, extPrefixes_cons]
    cases hfind : findChildIdx st cursor x.id with
    | some c =>
      rw [addLoop_found st cursor c x xs hfind]
      have hcons' : lookupRoot st (consumed ++ [x.id]) = some c := by
        rw [lookupRoot_append st x.id consumed hne, hcons]
        exact hfind
      have hmem : consumed ++ [x.id] ∈ P := (hinv.2.1 _).1 (by rw [hcons']; rfl)
      have hres := ih st P (consumed ++ [x.id]) c hinv (by simp) hcons'
      have hset : P ∪ insert (consumed ++ [x.id])
          (extPrefixes (consumed ++ [x.id]) (xs.map TSNode.id)) =
          P ∪ extPrefixes (consumed ++ [x.id]) (xs.map TSNode.id) := by
        rw [Finset.union_insert]
        exact Finset.insert_eq_self.2 (Finset.mem_union_left _ hmem)
      rw [hset]
      exact hres
    | none =>
      rw [addLoop_create st cursor x xs hfind]
      obtain ⟨hinv1, hnew, hroot1⟩ :=
        createSt_lookupInv st cursor x P hinv consumed hne hcons hfind
      have hres := ih (createSt st cursor x) (insert (consumed ++ [x.id]) P)
        (consumed ++ [x.id]) st.nodes.length hinv1 (by simp) hnew
      have hset : insert (consumed ++ [x.id]) P ∪
          extPrefixes (consumed ++ [x.id]) (xs.map TSNode.id) =
          P ∪ insert (consumed ++ [x.id])
            (extPrefixes (consumed ++ [x.id]) (xs.map TSNode.id)) := by
        rw [Finset.insert_union, Finset.union_insert]
      rw [hset] at hres
      exact ⟨hres.1, hres.2.trans hroot1⟩

theorem lookupRoot_single {st : ChangeTreeSt} {h : String}
    (hp : (lookupRoot st [h]).isSome) :
    ∃ rt, st.root = some rt ∧ idAt st rt = some h ∧ lookupRoot st [h] = some rt := by
  rw [lookupRoot] at hp ⊢
  cases hrt : st.root with
  | none =>
    simp only [hrt] at hp
    exact absurd hp (by simp)
  | some rt =>
    simp only [hrt] at hp ⊢
    by_cases hid : idAt st rt = some h
    · rw [if_pos hid]
      exact ⟨rt, rfl, hid, rfl⟩
    · rw [if_neg hid] at hp
      exact absurd hp (by simp)

theorem fresh_root_lookupInv (r : TSNode) :
    LookupInv ({ nodes := [freshNode r], root := some 0 } : ChangeTreeSt)
      ({[r.id]} : Finset (List String)) ∧
    lookupRoot ({ nodes := [freshNode r], root := some 0 } : ChangeTreeSt) [r.id] =
      some 0 := by
  set st1 : ChangeTreeSt := { nodes := [freshNode r], root := some 0 } with hst1
  have hid0 : idAt st1 0 = some r.id := by
    simp [hst1, idAt, nd?, freshNode]
  have hch0 : childrenAt st1 0 = [] := by
    simp [hst1, childrenAt, nd?, freshNode]
  have hroot1 : st1.root = some 0 := rfl
  have hlook : ∀ (p : List String) (k : Nat), lookupRoot st1 p = some k →
      p = [r.id] ∧ k = 0 := by
    intro p k hp
    cases p with
    | nil => exact Option.noConfusion hp
    | cons y ys =>
      rw [lookupRoot] at hp
      simp only [hroot1] at hp
      by_cases hy : idAt st1 0 = some y
      · rw [if_pos hy] at hp
        have hyr : y = r.id := by
          rw [hid0] at hy
          exact (Option.some.inj hy).symm
        subst hyr
        cases ys with
        | nil =>
          rw [walkIds] at hp
          cases hp
          exact ⟨rfl, rfl⟩
        | cons z zs =>
          rw [walkIds] at hp
          rw [findChildIdx, hch0] at hp
          simp [List.find?] at hp
      · rw [if_neg hy] at hp
        exact Option.noConfusion hp
  have hsingle : lookupRoot st1 [r.id] = some 0 := by
    rw [lookupRoot]
    simp only [hroot1]
    rw [if_pos hid0, walkIds]
  refine ⟨⟨?_, ?_, ?_, ?_, ?_⟩, hsingle⟩
  · simp [hst1]
  · intro p
    constructor
    · intro hp
      obtain ⟨k, hk⟩ := Option.isSome_iff_exists.1 hp
      rw [(hlook p k hk).1]
      exact Finset.mem_singleton_self _
    · intro hp
      rw [Finset.mem_singleton] at hp
      subst hp
      rw [hsingle]
      rfl
  · intro p q k hp hq
    rw [(hlook p k hp).1, (hlook q k hq).1]
  · intro j nd hnd c hc
    have hj : j < st1.nodes.length := lt_of_nd?_isSome hnd
    have hj0 : j = 0 := by
      simp [hst1] at hj
      exact hj
    subst hj0
    have : nd = freshNode r := by
      simp [hst1, nd?] at hnd
      exact hnd.symm
    subst this
    simp [freshNode] at hc
  · intro rt hrt
    have : rt = 0 := Option.some.inj (hroot1.symm.trans hrt).symm
    subst this
    simp [hst1]
theorem addRootPath_first (r : TSNode) (rest : List TSNode) :
    (addRootPathSt emptyChangeTree (r :: rest)).2 = none ∧
    LookupInv (addRootPathSt emptyChangeTree (r :: rest)).1
      (extPrefixes [] ((r :: rest).map TSNode.id)) := by
  have heq : addRootPathSt emptyChangeTree (r :: rest) =
      (addLoop ({ nodes := [freshNode r], root := some 0 } : ChangeTreeSt) 0 rest,
        none) := by
    simp [addRootPathSt, emptyChangeTree]
  rw [heq]
  obtain ⟨hinv1, hsingle⟩ := fresh_root_lookupInv r
  have hres := addLoop_lookupInv rest
    ({ nodes := [freshNode r], root := some 0 } : ChangeTreeSt)
    {[r.id]} [r.id] 0 hinv1 (by simp) hsingle
  refine ⟨rfl, ?_⟩
  have hset : ({[r.id]} : Finset (List String)) ∪
      extPrefixes [r.id] (rest.map TSNode.id) =
      extPrefixes [] ((r :: rest).map TSNode.id) := by
    rw [List.map_cons, extPrefixes_cons]
    simp [Finset.insert_eq]
  rw [← hset]
  exact hres.1

theorem addRootPath_next (st : ChangeTreeSt) (P : Finset (List String))
    (hinv : LookupInv st P) (r : TSNode) (rest : List TSNode)
    (hmem : [r.id] ∈ P) :
    (addRootPathSt st (r :: rest)).2 = none ∧
    LookupInv (addRootPathSt st (r :: rest)).1
      (P ∪ extPrefixes [] ((r :: rest).map TSNode.id)) := by
  obtain ⟨rt, hroot, hid, hlook⟩ := lookupRoot_single ((hinv.2.1 [r.id]).2 hmem)
  have heq : addRootPathSt st (r :: rest) = (addLoop st rt rest, none) := by
    rw [addRootPathSt]
    simp only [hroot]
    rw [if_pos hid]
  rw [heq]
  have hres := addLoop_lookupInv rest st P [r.id] rt hinv (by simp) hlook
  refine ⟨rfl, ?_⟩
  have hset : P ∪ extPrefixes [] ((r :: rest).map TSNode.id) =
      P ∪ extPrefixes [r.id] (rest.map TSNode.id) := by
    rw [List.map_cons, extPrefixes_cons]
    have h0 : (([] : List String) ++ [r.id]) = [r.id] := by simp
    rw [h0, Finset.union_insert]
    exact Finset.insert_eq_self.2 (Finset.mem_union_left _ hmem)
  rw [hset]
  exact hres.1

theorem allPrefixes_cons (a : List String) (l : List (List String)) :
    allPrefixes (a :: l) = extPrefixes [] a ∪ allPrefixes l := by
  rw [allPrefixes, allPrefixes, ← idPrefixes_toFinset]
  rw [show (a :: l).bind idPrefixes = idPrefixes a ++ l.bind idPrefixes from rfl]
  rw [List.toFinset_append]

theorem addAll_lookupInv :
    ∀ (ps : List (List TSNode)) (st : ChangeTreeSt) (P : Finset (List String)),
      LookupInv st P →
      (∀ p ∈ ps, ∃ r rest, p = r :: rest ∧ [r.id] ∈ P) →
      (addAll st ps).2 = none ∧
      (addAll st ps).1.nodes.length =
        (P ∪ allPrefixes (ps.map (List.map TSNode.id))).card ∧
      (∀ q : List String, (lookupRoot (addAll st ps).1 q).isSome ↔
        q ∈ P ∪ allPrefixes (ps.map (List.map TSNode.id))) := by
  intro ps
  induction ps with
  | nil =>
    intro st P hinv hheads
    rw [addAll]
    have h0 : allPrefixes ([] : List (List String)) = ∅ := by
      simp [allPrefixes]
    rw [List.map_nil, h0, Finset.union_empty]
    exact ⟨rfl, hinv.1, hinv.2.1⟩
  | cons p ps ih =>
    intro st P hinv hheads
    obtain ⟨r, rest, rfl, hmem⟩ := hheads p (List.mem_cons_self _ _)
    obtain ⟨herr, hinv'⟩ := addRootPath_next st P hinv r rest hmem
    have heq : addAll st ((r :: rest) :: ps) =
        addAll (addRootPathSt st (r :: rest)).1 ps := by
      rw [addAll]
      rcases haps : addRootPathSt st (r :: rest) with ⟨st', e⟩
      rw [haps] at herr
      simp at herr
      subst herr
      simp
    rw [heq]
    have hheads' : ∀ q ∈ ps, ∃ r' rest', q = r' :: rest' ∧
        [r'.id] ∈ P ∪ extPrefixes [] ((r :: rest).map TSNode.id) := by
      intro q hq
      obtain ⟨r', rest', rfl, hm⟩ := hheads q (List.mem_cons_of_mem _ hq)
      exact ⟨r', rest', rfl, Finset.mem_union_left _ hm⟩
    have hres := ih (addRootPathSt st (r :: rest)).1
      (P ∪ extPrefixes [] ((r :: rest).map TSNode.id)) hinv' hheads'
    have hset : P ∪ extPrefixes [] ((r :: rest).map TSNode.id) ∪
        allPrefixes (ps.map (List.map TSNode.id)) =
        P ∪ allPrefixes (((r :: rest) :: ps).map (List.map TSNode.id)) := by
      rw [show (((r :: rest) :: ps).map (List.map TSNode.id)) =
          ((r :: rest).map TSNode.id) :: ps.map (List.map TSNode.id) from rfl]
      rw [allPrefixes_cons, Finset.union_assoc]
    rw [hset] at hres
    exact hres
theorem addAll_from_empty (ps : List (List TSNode))
    (hne : ps ≠ []) (hpne : ∀ p ∈ ps, p ≠ [])
    (hheads : ∀ p ∈ ps, ∀ q ∈ ps,
      (p.map TSNode.id).head? = (q.map TSNode.id).head?) :
    (addAll emptyChangeTree ps).2 = none ∧
    (addAll emptyChangeTree ps).1.nodes.length =
      (allPrefixes (ps.map (List.map TSNode.id))).card ∧
    (∀ q : List String, (lookupRoot (addAll emptyChangeTree ps).1 q).isSome ↔
      q ∈ allPrefixes (ps.map (List.map TSNode.id))) := by
  cases ps with
  | nil => exact absurd rfl hne
  | cons p0 ps' =>
    cases p0 with
    | nil => exact absurd rfl (hpne [] (List.mem_cons_self _ _))
    | cons r rest =>
      obtain ⟨herr, hinv0⟩ := addRootPath_first r rest
      have heq : addAll emptyChangeTree ((r :: rest) :: ps') =
          addAll (addRootPathSt emptyChangeTree (r :: rest)).1 ps' := by
        rw [addAll]
        rcases haps : addRootPathSt emptyChangeTree (r :: rest) with ⟨st', e⟩
        rw [haps] at herr
        simp at herr
        subst herr
        simp
      have hrefmem : [r.id] ∈ extPrefixes [] ((r :: rest).map TSNode.id) := by
        rw [mem_extPrefixes]
        exact ⟨0, by simp, by simp⟩
      have hheads' : ∀ q ∈ ps', ∃ r' rest', q = r' :: rest' ∧
          [r'.id] ∈ extPrefixes [] ((r :: rest).map TSNode.id) := by
        intro q hq
        cases q with
        | nil => exact absurd rfl (hpne [] (List.mem_cons_of_mem _ hq))
        | cons r' rest' =>
          refine ⟨r', rest', rfl, ?_⟩
          have hh := hheads (r' :: rest') (List.mem_cons_of_mem _ hq) (r :: rest)
            (List.mem_cons_self _ _)
          simp only [List.map_cons, List.head?_cons] at hh
          have hid : r'.id = r.id := Option.some.inj hh
          rw [hid]
          exact hrefmem
      rw [heq]
      have hres := addAll_lookupInv ps'
        (addRootPathSt emptyChangeTree (r :: rest)).1
        (extPrefixes [] ((r :: rest).map TSNode.id)) hinv0 hheads'
      have hset : extPrefixes [] ((r :: rest).map TSNode.id) ∪
          allPrefixes (ps'.map (List.map TSNode.id)) =
          allPrefixes (((r :: rest) :: ps').map (List.map TSNode.id)) := by
        rw [show (((r :: rest) :: ps').map (List.map TSNode.id)) =
            ((r :: rest).map TSNode.id) :: ps'.map (List.map TSNode.id) from rfl]
        rw [allPrefixes_cons]
      rw [hset] at hres
      exact hres
theorem idPrefixes_nodup (a : List String) : (idPrefixes a).Nodup := by
  rw [idPrefixes]
  refine List.Nodup.map_on ?_ (List.nodup_range _)
  intro i hi j hj heq
  rw [List.mem_range] at hi hj
  have h1 : (a.take (i + 1)).length = i + 1 := by
    rw [List.length_take]
    omega
  have h2 : (a.take (j + 1)).length = j + 1 := by
    rw [List.length_take]
    omega
  have := congrArg List.length heq
  rw [h1, h2] at this
  omega

theorem card_idPrefixes (a : List String) :
    (idPrefixes a).toFinset.card = a.length := by
  rw [List.toFinset_card_of_nodup (idPrefixes_nodup a), idPrefixes,
    List.length_map, List.length_range]

theorem prefixes_inter (a b : List String) (k : Nat)
    (hk : a.take k = b.take k) (hne : a.take (k + 1) ≠ b.take (k + 1))
    (hka : k ≤ a.length) (hkb : k ≤ b.length) :
    (idPrefixes a).toFinset ∩ (idPrefixes b).toFinset =
      (idPrefixes (a.take k)).toFinset := by
  apply Finset.ext
  intro q
  simp only [Finset.mem_inter, List.mem_toFinset, idPrefixes, List.mem_map,
    List.mem_range]
  constructor
  · rintro ⟨⟨i, hi, rfl⟩, ⟨j, hj, hbq⟩⟩
    have hij : i = j := by
      have := congrArg List.length hbq
      rw [List.length_take, List.length_take] at this
      omega
    subst hij
    have hik : i + 1 ≤ k := by
      by_contra hgt
      push_neg at hgt
      apply hne
      have h1 : a.take (k + 1) = (a.take (i + 1)).take (k + 1) := by
        rw [List.take_take]
        congr 1
        omega
      have h2 : b.take (k + 1) = (b.take (i + 1)).take (k + 1) := by
        rw [List.take_take]
        congr 1
        omega
      rw [h1, h2, hbq]
    refine ⟨i, ?_, ?_⟩
    · rw [List.length_take]
      omega
    · rw [List.take_take]
      congr 1
      omega
  · rintro ⟨i, hi, rfl⟩
    have hik : i < k := by
      rw [List.length_take] at hi
      omega
    have hqa : (a.take k).take (i + 1) = a.take (i + 1) := by
      rw [List.take_take]
      congr 1
      omega
    have hqb : (a.take k).take (i + 1) = b.take (i + 1) := by
      rw [hk, List.take_take]
      congr 1
      omega
    constructor
    · exact ⟨i, by omega, by rw [hqa]⟩
    · exact ⟨i, by omega, by rw [hqb]⟩

theorem card_two_paths (a b : List String) (k : Nat)
    (hk : a.take k = b.take k) (hne : a.take (k + 1) ≠ b.take (k + 1))
    (hka : k ≤ a.length) (hkb : k ≤ b.length) :
    (allPrefixes [a, b]).card = a.length + b.length - k := by
  have hun : allPrefixes [a, b] =
      (idPrefixes a).toFinset ∪ (idPrefixes b).toFinset := by
    rw [allPrefixes,
      show ([a, b].bind idPrefixes) = idPrefixes a ++ (idPrefixes b ++ []) from rfl,
      List.toFinset_append, List.toFinset_append]
    simp
  rw [hun]
  have hcard := Finset.card_union_add_card_inter
    (idPrefixes a).toFinset (idPrefixes b).toFinset
  rw [prefixes_inter a b k hk hne hka hkb] at hcard
  have hca := card_idPrefixes a
  have hcb := card_idPrefixes b
  have hck : (idPrefixes (a.take k)).toFinset.card = k := by
    rw [card_idPrefixes, List.length_take]
    omega
  omega
/-- C2: starting from a fresh tree, adding any sequence of nonempty root
paths that agree on the root's identity raises no error and leaves the
ChangeTree realizing exactly the union of the paths with every shared
prefix represented once: an identity-sequence prefix is realized by a node
iff it is a prefix of one of the added paths, and the total node count is
the number of distinct nonempty prefixes; in particular two paths whose
identity sequences share a longest common prefix of length k produce one
shared chain of k nodes plus the two distinct suffixes, |p| + |q| − k
nodes in total. -/
theorem add_root_path_prefix_merge_count :
    (∀ ps : List (List TSNode), ps ≠ [] → (∀ p ∈ ps, p ≠ []) →
      (∀ p ∈ ps, ∀ q ∈ ps, (p.map TSNode.id).head? = (q.map TSNode.id).head?) →
      (addAll emptyChangeTree ps).2 = none ∧
      (∀ q : List String, (lookupRoot (addAll emptyChangeTree ps).1 q).isSome ↔
        q ∈ allPrefixes (ps.map (List.map TSNode.id))) ∧
      (addAll emptyChangeTree ps).1.nodes.length =
        (allPrefixes (ps.map (List.map TSNode.id))).card) ∧
    (∀ (p q : List TSNode) (k : Nat),
      p ≠ [] → q ≠ [] →
      (p.map TSNode.id).head? = (q.map TSNode.id).head? →
      (p.map TSNode.id).take k = (q.map TSNode.id).take k →
      (p.map TSNode.id).take (k + 1) ≠ (q.map TSNode.id).take (k + 1) →
      k ≤ p.length → k ≤ q.length →
      (addAll emptyChangeTree [p, q]).1.nodes.length =
        p.length + q.length - k) := by
  have hmain : ∀ ps : List (List TSNode), ps ≠ [] → (∀ p ∈ ps, p ≠ []) →
      (∀ p ∈ ps, ∀ q ∈ ps, (p.map TSNode.id).head? = (q.map TSNode.id).head?) →
      (addAll emptyChangeTree ps).2 = none ∧
      (∀ q : List String, (lookupRoot (addAll emptyChangeTree ps).1 q).isSome ↔
        q ∈ allPrefixes (ps.map (List.map TSNode.id))) ∧
      (addAll emptyChangeTree ps).1.nodes.length =
        (allPrefixes (ps.map (List.map TSNode.id))).card := by
    intro ps hne hpne hheads
    obtain ⟨h1, h2, h3⟩ := addAll_from_empty ps hne hpne hheads
    exact ⟨h1, h3, h2⟩
  refine ⟨hmain, ?_⟩
  intro p q k hp hq hhead htake hne hkp hkq
  have hheads : ∀ a ∈ [p, q], ∀ b ∈ [p, q],
      (a.map TSNode.id).head? = (b.map TSNode.id).head? := by
    intro a ha b hb
    simp only [List.mem_cons, List.mem_singleton, List.not_mem_nil] at ha hb
    rcases ha with rfl | rfl | h
    · rcases hb with rfl | rfl | h
      · rfl
      · exact hhead
      · exact h.elim
    · rcases hb with rfl | rfl | h
      · exact hhead.symm
      · rfl
      · exact h.elim
    · exact h.elim
  have hpne : ∀ a ∈ [p, q], a ≠ [] := by
    intro a ha
    simp only [List.mem_cons, List.mem_singleton, List.not_mem_nil] at ha
    rcases ha with rfl | rfl | h
    · exact hp
    · exact hq
    · exact h.elim
  obtain ⟨-, -, hcount⟩ := hmain [p, q] (by simp) hpne hheads
  rw [hcount]
  have : ([p, q].map (List.map TSNode.id)) = [p.map TSNode.id, q.map TSNode.id] :=
    rfl
  rw [this, card_two_paths (p.map TSNode.id) (q.map TSNode.id) k htake hne
    (by rw [List.length_map]; exact hkp) (by rw [List.length_map]; exact hkq)]
  rw [List.length_map, List.length_map]

/-- Witness for C2: two concrete three-node paths sharing a two-node
prefix merge into 3 + 3 − 2 = 4 nodes. -/
theorem add_root_path_prefix_merge_count_witness :
    (addAll emptyChangeTree [[tnOf "r", tnOf "a", tnOf "x"],
      [tnOf "r", tnOf "a", tnOf "y"]]).1.nodes.length = 4 := by
  have h := add_root_path_prefix_merge_count.2
    [tnOf "r", tnOf "a", tnOf "x"] [tnOf "r", tnOf "a", tnOf "y"] 2
    (by decide) (by decide) (by decide) (by decide) (by decide)
    (by decide) (by decide)
  simpa using h
/-- A parsed tree as the root-path extractor sees it: a node payload and
ordered children. -/
inductive STree : Type where
  | mk (label : TSNode) (children : List STree)

mutual
/-- `get_root_path` results for every leaf of a subtree, given the path
from the tree's root down to the subtree's parent: leaves are visited in
depth-first traversal order, and each contributes the root-to-leaf node
list built by following parent links. -/
def STree.rootPathsAux : STree → List TSNode → List (List TSNode)
  | .mk lab cs, pfx =>
    if cs.isEmpty then [pfx ++ [lab]] else STree.rootPathsList cs (pfx ++ [lab])
/-- Leaf root paths of a sibling list, left to right. -/
def STree.rootPathsList : List STree → List TSNode → List (List TSNode)
  | [], _ => []
  | c :: cs, pfx => STree.rootPathsAux c pfx ++ STree.rootPathsList cs pfx
end

/-- `TreeSitterTree.get_root_paths`: the root path of every leaf, in
traversal order. -/
def STree.get_root_paths (t : STree) : List (List TSNode) :=
  STree.rootPathsAux t []

mutual
/-- Number of leaves of a tree. -/
def STree.leafCount : STree → Nat
  | .mk _ cs => if cs.isEmpty then 1 else STree.leafCountList cs
/-- Number of leaves of a sibling list. -/
def STree.leafCountList : List STree → Nat
  | [] => 0
  | c :: cs => STree.leafCount c + STree.leafCountList cs
end

/-- The capped extraction of `ChangeTree.__init__`:
`[RootPath(p) for p in tree.get_root_paths()[:max_root_paths]]`. -/
def cappedRootPaths (t : STree) (max_root_paths : Nat) : List RootPath :=
  ((STree.get_root_paths t).take max_root_paths).map RootPath.mk

theorem rootPaths_length :
    ∀ n : Nat,
      (∀ t : STree, sizeOf t ≤ n → ∀ pfx,
        (STree.rootPathsAux t pfx).length = t.leafCount) ∧
      (∀ l : List STree, sizeOf l ≤ n → ∀ pfx,
        (STree.rootPathsList l pfx).length = STree.leafCountList l) := by
  intro n
  induction n with
  | zero =>
    constructor
    · intro t hsz
      cases t with
      | mk lab cs => simp at hsz
    · intro l hsz pfx
      cases l with
      | nil => rfl
      | cons c cs => simp at hsz
  | succ n ih =>
    constructor
    · intro t hsz pfx
      cases t with
      | mk lab cs =>
        rw [STree.rootPathsAux, STree.leafCount]
        by_cases hcs : cs.isEmpty
        · rw [if_pos hcs, if_pos hcs]
          rfl
        · rw [if_neg hcs, if_neg hcs]
          refine ih.2 cs ?_ (pfx ++ [lab])
          have : sizeOf (STree.mk lab cs) = 1 + sizeOf lab + sizeOf cs := by
            simp
          omega
    · intro l hsz pfx
      cases l with
      | nil => rfl
      | cons c cs =>
        rw [STree.rootPathsList, STree.leafCountList, List.length_append]
        have hszc : sizeOf c ≤ n := by
          have : sizeOf (c :: cs) = 1 + sizeOf c + sizeOf cs := by simp
          omega
        have hszcs : sizeOf cs ≤ n := by
          have : sizeOf (c :: cs) = 1 + sizeOf c + sizeOf cs := by simp
          omega
        rw [ih.1 c hszc pfx, ih.2 cs hszcs pfx]

theorem get_root_paths_length (t : STree) :
    (STree.get_root_paths t).length = t.leafCount :=
  (rootPaths_length (sizeOf t)).1 t (le_refl _) []

/-- C7: the builder's root-path extraction is exactly the uncapped
extraction truncated to its first `max_root_paths` elements (same relative
order, the rest silently dropped), so it has `min max_root_paths
(number of leaves)` elements; a tree with 2000 leaves capped at 1000
contributes exactly 1000 root paths. -/
theorem get_root_paths_cap_truncation :
    (∀ (t : STree) (m : Nat),
      cappedRootPaths t m = ((STree.get_root_paths t).take m).map RootPath.mk ∧
      (cappedRootPaths t m).map RootPath.path = (STree.get_root_paths t).take m ∧
      (cappedRootPaths t m).length = min m t.leafCount) ∧
    (∀ t : STree, t.leafCount = 2000 →
      (cappedRootPaths t 1000).length = 1000) := by
  have hmap : ∀ (t : STree) (m : Nat),
      (cappedRootPaths t m).map RootPath.path = (STree.get_root_paths t).take m := by
    intro t m
    rw [cappedRootPaths, List.map_map]
    have : (RootPath.path ∘ RootPath.mk) = id := rfl
    rw [this, List.map_id]
  have hlen : ∀ (t : STree) (m : Nat),
      (cappedRootPaths t m).length = min m t.leafCount := by
    intro t m
    rw [cappedRootPaths, List.length_map, List.length_take,
      get_root_paths_length]
  refine ⟨fun t m => ⟨rfl, hmap t m, hlen t m⟩, ?_⟩
  intro t h2000
  rw [hlen, h2000]
  rfl

/-- A tree with 2000 identical leaf children below one root. -/
def star2000 : STree :=
  STree.mk (tnOf "root") (List.replicate 2000 (STree.mk (tnOf "leaf") []))

theorem leafCountList_replicate (n : Nat) :
    STree.leafCountList (List.replicate n (STree.mk (tnOf "leaf") [])) = n := by
  induction n with
  | zero => rfl
  | succ n ih =>
    rw [List.replicate_succ, STree.leafCountList, ih, STree.leafCount]
    simp
    omega

/-- Witness for C7: the 2000-leaf star tree capped at 1000 yields exactly
1000 root paths. -/
theorem get_root_paths_cap_truncation_witness :
    (cappedRootPaths star2000 1000).length = 1000 := by
  refine get_root_paths_cap_truncation.2 star2000 ?_
  rw [star2000, STree.leafCount]
  rw [if_neg (by simp)]
  exact leafCountList_replicate 2000
/-- A node as `Node.ancestors`, `relative_id` and `to_node_path` read it:
type, optional value, sibling rank, leaf flag (children emptiness), and
either no parent (a root) or a parent node. -/
inductive PNode : Type where
  | root (type : String) (value : Option String) (child_rank : Nat) (leaf : Bool)
  | child (type : String) (value : Option String) (child_rank : Nat) (leaf : Bool)
      (parent : PNode)

def PNode.type : PNode → String
  | .root t _ _ _ => t
  | .child t _ _ _ _ => t

def PNode.value : PNode → Option String
  | .root _ v _ _ => v
  | .child _ v _ _ _ => v

def PNode.child_rank : PNode → Nat
  | .root _ _ r _ => r
  | .child _ _ r _ _ => r

def PNode.is_leaf : PNode → Bool
  | .root _ _ _ l => l
  | .child _ _ _ l _ => l

def PNode.parent : PNode → Option PNode
  | .root _ _ _ _ => none
  | .child _ _ _ _ p => some p

/-- `Node.ancestors`: walk `parent` links, collecting the immediate parent
first and the root last. -/
def PNode.ancestors : PNode → List PNode
  | .root _ _ _ _ => []
  | .child _ _ _ _ p => p :: p.ancestors

/-- `Node.ast_identifier`: the node's value when it is a leaf, else
`None`. -/
def ast_identifier (n : PNode) : Option String :=
  if n.is_leaf then n.value else none

/-- `Node.relative_id`, parameterized by the digest function standing for
`hashlib.md5(...).hexdigest()`: hash of depth, sibling rank, type and —
when the leaf identifier is truthy — the identifier. -/
def relative_id (hash : String → String) (n : PNode) : String :=
  let str_repr := toString n.ancestors.length ++ "_" ++
    toString n.child_rank ++ "_" ++ n.type
  let str_repr2 :=
    match ast_identifier n with
    | some v => if v = "" then str_repr else str_repr ++ "_" ++ v
    | none => str_repr
  "node_" ++ hash str_repr2

/-- `Node.to_node_path`: concatenation of `relative_id` over `ancestors`,
in the list's own order (immediate parent first, root last). -/
def to_node_path (hash : String → String) (n : PNode) : String :=
  String.join ((PNode.ancestors n).map (relative_id hash))

/-- The root-to-immediate-parent chain, the order the spec claims for the
concatenation. -/
def rootChain : PNode → List PNode
  | .root _ _ _ _ => []
  | .child _ _ _ _ p => rootChain p ++ [p]

theorem rootChain_reverse_eq_ancestors (n : PNode) :
    (rootChain n).reverse = PNode.ancestors n := by
  induction n with
  | root t v r l => rfl
  | child t v r l p ihp =>
    rw [rootChain, PNode.ancestors, List.reverse_append, ← ihp]
    rfl

/-- C8 (amended): `to_node_path` concatenates the per-ancestor
fingerprints in immediate-parent-to-root order, i.e. over the reversal of
the root-to-parent chain. -/
theorem to_node_path_parent_to_root_order (hash : String → String) (n : PNode) :
    to_node_path hash n =
      String.join (((rootChain n).reverse).map (relative_id hash)) := by
  rw [to_node_path, rootChain_reverse_eq_ancestors]

/-- C8 counterexample: at a two-ancestor chain (root of type A, parent of
type B, leaf of type C) with the identity digest, the concatenation is not
in root-to-immediate-parent order — node_1_0_B precedes node_0_0_A. -/
theorem to_node_path_order_counterexample :
    to_node_path (fun s => s)
        (PNode.child "C" none 0 true
          (PNode.child "B" none 0 false (PNode.root "A" none 0 false))) ≠
      String.join ((rootChain
        (PNode.child "C" none 0 true
          (PNode.child "B" none 0 false (PNode.root "A" none 0 false)))).map
          (relative_id (fun s => s))) ∧
    to_node_path (fun s => s)
        (PNode.child "C" none 0 true
          (PNode.child "B" none 0 false (PNode.root "A" none 0 false))) =
      "node_1_0_Bnode_0_0_A" := by
  constructor
  · decide
  · decide
/-- A raw tree-sitter node as `TreeSitterNode` reads it: type tag, source
text (bytes, lossy-decodable — decoding with errors ignored always
produces a string), and the number of children. -/
structure RawNode where
  type : String
  text : String
  childCount : Nat
deriving DecidableEq, Repr

/-- `TreeSitterNode.value`: `self.node_.text.decode("utf-8", errors="ignore")`
— the decoded source text of the node, produced for every node. -/
def tsValue (n : RawNode) : Option String := some n.text

/-- `Node.is_leaf` for the parsed variant: no children. -/
def tsIsLeaf (n : RawNode) : Bool := n.childCount == 0

/-- `Node.ast_identifier` for the parsed variant: the value only for a
leaf. -/
def tsAstIdentifier (n : RawNode) : Option String :=
  if tsIsLeaf n then tsValue n else none

/-- The `TSNode` interface view produced from a raw parsed node (the data
`NodeFactory.chtree_node_from_sitter_node` copies). -/
def tsToTSNode (idv : String) (rk : Nat) (n : RawNode) : TSNode :=
  { id := idv, child_rank := rk, type := n.type, value := tsValue n }

/-- A concrete non-leaf parsed node: a block with two children and source
text. -/
def rawBlock : RawNode := { type := "block", text := "xy", childCount := 2 }

/-- C9 counterexample: a non-leaf node's `value` is present (its decoded
source text), not absent, and the change-tree node built from it carries
that value too. -/
theorem value_nonleaf_present_counterexample :
    tsIsLeaf rawBlock = false ∧ tsValue rawBlock ≠ none ∧
    (freshNode (tsToTSNode "b0" 0 rawBlock)).value = some "xy" := by
  refine ⟨by decide, by decide, by decide⟩

/-- C9 (amended): for a parsed node `value` is always present — it is the
node's decoded source text, for leaves and non-leaves alike, and it is
copied into the change-tree node; the leaf-only field is
`ast_identifier`, which is absent for every non-leaf node. -/
theorem value_always_present_ast_identifier_leaf_only :
    (∀ n : RawNode, tsValue n = some n.text) ∧
    (∀ n : RawNode, tsIsLeaf n = false → tsAstIdentifier n = none) ∧
    (∀ (idv : String) (rk : Nat) (n : RawNode),
      (freshNode (tsToTSNode idv rk n)).value = some n.text) := by
  refine ⟨fun n => rfl, ?_, fun idv rk n => rfl⟩
  intro n h
  rw [tsAstIdentifier, h]
  rfl

/-- Witness for C9 at the concrete non-leaf block node. -/
theorem value_always_present_ast_identifier_leaf_only_witness :
    tsAstIdentifier rawBlock = none :=
  value_always_present_ast_identifier_leaf_only.2.1 rawBlock (by decide)
